import Mathlib

/-!
Verification of the free-group word layer and the train-track analyzer of the
sage-train-track repository, as a shallow embedding in Lean 4.

The embedding follows the Python source:
* `free_group_word.py` — reduced words over an alphabet with involution
  (`_reduce`, `_mul_`, `common_prefix_length`, `__eq__`, `__cmp__`,
  `__getitem__` slicing);
* `inverse_alphabet.py` — `build_alphabet_with_inverses`;
* `train_track_map.py` — `is_expanding`, `indivisible_nielsen_paths`,
  `stabilize` (first phase), `is_iwip` (control flow) together with the
  stratification check of `is_perron_frobenius`.

Letters are an arbitrary type `L` with decidable equality; the involution is a
function `inv : L → L` (the source's `inverse_letter`).  Python lists become
`List L`; in-place mutation is modelled by explicit state passing; code that
raises becomes `Except PyErr`; the two unbounded worklist loops are
fuel-indexed and return `Option`/their state, `none` standing for a run that
has not terminated within the fuel.

The file is organised with all definitions first, followed by the theorems.
-/

set_option linter.unusedSectionVars false

namespace STT

/-- Python exceptions raised by the source code. -/
inductive PyErr : Type
  | valueError
  | typeError
  | nameError
  | assertionError
  deriving DecidableEq, Repr

/-- The involution of the default alphabets built by
`build_alphabet_with_inverses` ('a' ↔ 'A', …): toggle the ASCII case.  Used
for concrete instances. -/
def chInv (c : Char) : Char :=
  if c.isLower then c.toUpper else if c.isUpper then c.toLower else c

section Defs

variable {L : Type} [DecidableEq L]

/-- A word is reduced when no letter is followed by its inverse
(`free_group_word.py`, class invariant: `data[i+1] != inverse_letter(data[i])`). -/
def Reduced (inv : L → L) (w : List L) : Prop :=
  List.Chain' (fun a b => b ≠ inv a) w

instance reducedDec (inv : L → L) : ∀ w : List L, Decidable (Reduced inv w)
  | [] => isTrue List.chain'_nil
  | [a] => isTrue (List.chain'_singleton a)
  | a :: b :: rest =>
    haveI := reducedDec inv (b :: rest)
    decidable_of_iff (b ≠ inv a ∧ Reduced inv (b :: rest)) (by
      constructor
      · intro h; exact List.chain'_cons.mpr h
      · intro h; exact List.chain'_cons.mp h)

/-- One elementary free cancellation: delete an adjacent pair `a, inv a`. -/
def RedStep (inv : L → L) (x y : List L) : Prop :=
  ∃ l r a, x = l ++ a :: inv a :: r ∧ y = l ++ r

/-- `Reduces inv x y`: `x` rewrites to `y` by finitely many elementary
cancellations; for `y` reduced this says `y` is the free reduction of `x`,
i.e. `x` and `y` are equal in the free group. -/
def Reduces (inv : L → L) : List L → List L → Prop :=
  Relation.ReflTransGen (RedStep inv)

/-- The cancellation count computed by the while loop of `_mul_`
(`free_group_word.py` lines 254-259): `i` is incremented while
`i < len(self)`, `i < len(other)` and `inverse_letter(self[-i-1]) == other[i]`.
The first argument here is `self`'s data reversed, so that `self[-i-1]`
becomes the `i`-th element. -/
def cancelLen (inv : L → L) : List L → List L → ℕ
  | a :: ru, b :: v => if inv a = b then cancelLen inv ru v + 1 else 0
  | _, _ => 0

/-- `_mul_` (`free_group_word.py` line 259):
`self._data[:len(self)-i] + other._data[i:]` with `check=False`. -/
def pyMul (inv : L → L) (u v : List L) : List L :=
  u.take (u.length - cancelLen inv u.reverse v) ++ v.drop (cancelLen inv u.reverse v)

/-- The inner while loop of `_reduce` (`free_group_word.py` lines 210-213):
starting from positions `i` (top of the processed stack) and `j` (read
pointer), count how many pairs `data[i-k]`, `data[j+k]` are inverse of each
other, stopping at the first mismatch, at `i - k < 0` (handled by the
structural recursion on `i`), or at `j + k >= len(data)`. -/
def matchRun (inv : L → L) (data : List L) : ℕ → ℕ → ℕ
  | i, j =>
    if i < data.length ∧ j < data.length ∧ (data[i]?).map inv = data[j]? then
      match i with
      | 0 => 1
      | Nat.succ i' => matchRun inv data i' (j + 1) + 1
    else 0

/-- The outer while loop of `_reduce` (`free_group_word.py` lines 207-220),
with the in-place list mutation made explicit.  One iteration with
`k = matchRun …` performs `i = i-k+1; j = j+k+1`, writes `data[i] = data[j-1]`
when `j-1 < len(data)`; otherwise the loop is about to exit with `i`
decremented once more, so the final `del data[i+1:]` keeps `i+1-k` cells.
The loop runs while `j < len(data)`; `fuel` dominates the number of
iterations, which is at most `len(data)` since `j` strictly increases. -/
def pyReduceGo (inv : L → L) : ℕ → List L → ℕ → ℕ → List L
  | 0, data, i, _ => data.take (i + 1)
  | fuel + 1, data, i, j =>
    if h : j < data.length then
      let k := matchRun inv data i j
      if h' : j + k + 1 ≤ data.length then
        pyReduceGo inv fuel (data.set (i + 1 - k) (data.get ⟨j + k, by omega⟩))
          (i + 1 - k) (j + k + 1)
      else data.take (i + 1 - k)
    else data.take (i + 1)

/-- `_reduce` (`free_group_word.py` lines 193-220): in-place free reduction
with two moving indices, started at `i = 0`, `j = 1`. -/
def pyReduce (inv : L → L) (data : List L) : List L :=
  pyReduceGo inv (data.length + 1) data 0 1

/-- Modelled from the spec: `common_prefix_length` as intended
(spec §4.1: "maximal `k` with `u[:k] = v[:k]`"; §9 records that the source
body reads undefined locals `u, v` whose intent "is clearly `self, other`").
This is also the graph contract `common_prefix_length(p, q)` on edge-paths
(spec §4.2) consumed by the train-track analyzer, whose implementation is in
`topological_representative.py`, not among the sources. -/
def cpl : List L → List L → ℕ
  | a :: u, b :: v => if a = b then cpl u v + 1 else 0
  | _, _ => 0

/-- `common_prefix_length` as it actually executes (`free_group_word.py`
lines 292-295): the body is `k=0; while k<len(u) and k<len(v) and u[k]==v[k]`
where `u` and `v` are names that are bound nowhere, so every call raises
`NameError` at the first loop test, before looking at the arguments. -/
def commonPrefixLengthCode (_u _v : List L) : Except PyErr ℕ :=
  .error .nameError

/-- `build_alphabet_with_inverses` (`inverse_alphabet.py` lines 10-47) on a
string of letters.  With `neg = None`: if all positives are lower-case the
negatives are the upper-cased string; if all positives are upper-case the
source executes `''.join(neg).lower()` while `neg` is still `None`, which
raises `TypeError` (and would assign the result to `pos`, not `neg`);
otherwise it raises `ValueError` ("not able to determine default inverse
letters", the spec's `AmbiguousInverse`).  With explicit `neg`: an `assert`
compares cardinalities and overlapping letters raise `ValueError`. -/
def buildAlphabetWithInverses (data : List Char) (neg : Option (List Char)) :
    Except PyErr (List Char × List Char) :=
  match neg with
  | none =>
    if data.all Char.isLower then
      .ok (data, data.map Char.toUpper)
    else if data.all Char.isUpper then
      .error .typeError
    else
      .error .valueError
  | some n =>
    if data.length ≠ n.length then .error .assertionError
    else if data.any (fun c => n.contains c) then .error .valueError
    else if n.any (fun c => data.contains c) then .error .valueError
    else .ok (data, n)

instance exceptDecEq {E A : Type} [DecidableEq E] [DecidableEq A] :
    DecidableEq (Except E A) := fun x y =>
  match x, y with
  | .error e1, .error e2 => decidable_of_iff (e1 = e2) (by simp)
  | .ok a1, .ok a2 => decidable_of_iff (a1 = a2) (by simp)
  | .error _, .ok _ => isFalse (fun h => Except.noConfusion h)
  | .ok _, .error _ => isFalse (fun h => Except.noConfusion h)

/-- A free group as the word layer sees it (`free_group.py`): a tag standing
for Python object identity (the parents are compared with `is`), the full
alphabet, and the letter involution `inverse_letter`. -/
structure PyFreeGroup (L : Type) where
  gid : ℕ
  letters : List L
  inv : L → L

/-- `FreeGroupWord`: a parent group and the letter list `_data`. -/
structure PyWord (L : Type) where
  parent : PyFreeGroup L
  data : List L

/-- `__eq__` (`free_group_word.py` lines 113-117) with the second operand an
arbitrary Python object: `none` stands for an operand that is not a
`FreeGroupWord`, in which case the `isinstance` test makes the result
`False`; otherwise the parents are compared by identity and the data lists
by equality.  No branch raises. -/
def pyEq (w1 : PyWord L) (other : Option (PyWord L)) : Bool :=
  match other with
  | none => false
  | some w2 => w1.parent.gid == w2.parent.gid && w1.data == w2.data

/-- `__ne__` (`free_group_word.py` lines 119-120): `not self.__eq__(other)`. -/
def pyNe (w1 : PyWord L) (other : Option (PyWord L)) : Bool :=
  !pyEq w1 other

/-- Python 2 `cmp` on lists: lexicographic, a strict prefix is smaller. -/
def cmpList (cmpL : L → L → Ordering) : List L → List L → Ordering
  | [], [] => .eq
  | [], _ :: _ => .lt
  | _ :: _, [] => .gt
  | a :: u, b :: v =>
    match cmpL a b with
    | .eq => cmpList cmpL u v
    | o => o

/-- `__cmp__` (`free_group_word.py` lines 122-125): raises `TypeError`
("can not compare words on different free groups") unless the other operand
is a word with the identical parent; otherwise compares the data lists. -/
def pyCmp (cmpL : L → L → Ordering) (w1 : PyWord L) (other : Option (PyWord L)) :
    Except PyErr Ordering :=
  match other with
  | none => .error .typeError
  | some w2 =>
    if w1.parent.gid ≠ w2.parent.gid then .error .typeError
    else .ok (cmpList cmpL w1.data w2.data)

/-- Clamping of one slice bound, as in CPython `slice.indices(n)`:
`lower`/`upper` are the bounds for the sign of the step, `dflt` the value
used for an omitted bound; a negative bound counts from the end. -/
def clampIdx (n : ℕ) (lower upper : Int) (idx : Option Int) (dflt : Int) : Int :=
  match idx with
  | none => dflt
  | some s => if s < 0 then max lower (s + n) else min s upper

/-- Elements selected by a slice with step `1` or `-1`, following CPython
semantics of `l[start:stop:step]`. -/
def sliceElems (data : List L) (start stop : Option Int) (step : Int) : List L :=
  let n : Int := data.length
  if 0 < step then
    let s := clampIdx data.length 0 n start 0
    let e := clampIdx data.length 0 n stop n
    (data.drop s.toNat).take (e - s).toNat
  else
    let s := clampIdx data.length (-1) (n - 1) start (n - 1)
    let e := clampIdx data.length (-1) (n - 1) stop (-1)
    ((data.drop (e + 1).toNat).take (s - e).toNat).reverse

/-- Construction of a word by the parent, `check=True`
(`free_group.py` `_element_constructor_`, `free_group_word.py` `__init__`):
`_check_alphabet` raises `ValueError` for a letter outside the alphabet,
then `_reduce` freely reduces the data in place. -/
def constructWord (G : PyFreeGroup L) (data : List L) : Except PyErr (PyWord L) :=
  if data.all (fun a => G.letters.contains a) then
    .ok ⟨G, pyReduce G.inv data⟩
  else .error .valueError

/-- `__getitem__` on a slice (`free_group_word.py` lines 160-191): a step
other than `1`/`-1` raises `ValueError` ("step can only be 1 or -1", the
spec's `UnsupportedStep`); otherwise `self.parent()(self._data[i])` builds a
word of the same parent with `check=True`. -/
def pyGetItemSlice (w : PyWord L) (start stop step : Option Int) :
    Except PyErr (PyWord L) :=
  match step with
  | some s =>
    if s ≠ 1 ∧ s ≠ -1 then .error .valueError
    else constructWord w.parent (sliceElems w.data start stop s)
  | none => constructWord w.parent (sliceElems w.data start stop 1)

/-- Application of the edge map to an edge path: `WordMorphism` of the
images, i.e. concatenation (`self(w)` and `self.image(a)` in
`train_track_map.py`). -/
def fstar (img : L → List L) (w : List L) : List L :=
  w.flatMap img

/-- Iterates `f^n` on an edge path (no cancellation: `self` is assumed
train-track, spec §3). -/
def fpow (img : L → List L) (n : ℕ) (w : List L) : List L :=
  (fstar img)^[n] w

/-- One pass of the second pruning loop of `is_expanding`
(`train_track_map.py` lines 149-157): run over the worklist left to right
and pop `e` when `self.image(e)[0] not in edges`, where the membership test
uses the list as already mutated by the pops of this very pass (`pre` is the
kept prefix, `e :: rest` the part not yet visited).  Edge images are
non-empty by the data model (spec §3), so `headI` is the source's
`image(e)[0]`. -/
def sweepOnce [Inhabited L] (img : L → List L) : List L → List L → List L
  | pre, [] => pre
  | pre, e :: rest =>
    if (pre ++ e :: rest).contains (img e).headI then
      sweepOnce img (pre ++ [e]) rest
    else
      sweepOnce img pre rest

/-- The `while not done` loop of `is_expanding`: repeat passes until a pass
removes nothing.  Each productive pass strictly shrinks the list, so
`length + 1` passes of fuel always suffice. -/
def pruneLoop [Inhabited L] (img : L → List L) : ℕ → List L → List L
  | 0, edges => edges
  | fuel + 1, edges =>
    let edges' := sweepOnce img [] edges
    if edges'.length = edges.length then edges'
    else pruneLoop img fuel edges'

/-- `is_expanding` (`train_track_map.py` lines 126-158).  First pass: pop the
positive letters whose image has length `> 1` (setting `done=False` if any).
If nothing was popped, `done` stays `True` and the second loop never runs;
otherwise prune letters whose image's first letter is not in the worklist.
Expanding iff the worklist is emptied. -/
def isExpanding [Inhabited L] (pos : List L) (img : L → List L) : Bool :=
  let edges1 := pos.filter (fun e => decide ((img e).length ≤ 1))
  if edges1.length = pos.length then edges1.isEmpty
  else (pruneLoop img (edges1.length + 1) edges1).isEmpty

/-- The inputs consulted by `is_iwip` (`train_track_map.py` lines 1454-1525),
one field per sub-call whose implementation is outside this file's scope:
`strataAfterReduce` is `len(self._strata)` right after the initial
`self.reduce()`; `stratifyLen` is `len(self.stratify())` computed inside
`is_perron_frobenius` (line 175); `pfReachable` is the outcome of the
reachability analysis of `is_perron_frobenius` (lines 179-222);
`whiteheadComponents` and `vertices` feed the connectivity test (line 1497);
`nielsenLoops` is the number of periodic Nielsen loops and
`loopInFreeFactor` the result of `lies_in_a_free_factor` (line 1513). -/
structure IwipState where
  strataAfterReduce : ℕ
  stratifyLen : ℕ
  pfReachable : Bool
  whiteheadComponents : ℕ
  vertices : ℕ
  nielsenLoops : ℕ
  loopInFreeFactor : Bool

/-- `is_perron_frobenius` (`train_track_map.py` lines 160-222): returns
`False` when `len(self.stratify()) > 1`, otherwise the result of the
reachability closure. -/
def isPerronFrobeniusB (st : IwipState) : Bool :=
  if st.stratifyLen > 1 then false else st.pfReachable

/-- `is_iwip` control flow (`train_track_map.py` lines 1481-1525).  After
`self.reduce(…)`, the test `if len(self._strata) > 1:` at line 1485 only
prints under `verbose` and does not return, so the flow continues into the
Perron-Frobenius test regardless of the number of strata. -/
def isIwipB (st : IwipState) : Bool :=
  if !isPerronFrobeniusB st then false
  else if st.whiteheadComponents > st.vertices then false
  else if st.nielsenLoops > 0 then
    if st.nielsenLoops > 1 then false
    else if st.loopInFreeFactor then false
    else true
  else true

/-- Modelled from the spec: the `extension` table of
`indivisible_nielsen_paths` (`train_track_map.py` lines 359-364) is built
from `edge_turns`, whose implementation is in
`topological_representative.py`, not among the sources.  Per spec §3 the edge
turns are the turns `{inv aᵢ, aᵢ₊₁}` crossed by the images of edges, and §8
notes the set is closed under `inv` on both components (the images of the
negative edges provide the symmetric pairs), so `extension[x]` is the set of
letters that follow `x` in the image `f(e)` of some edge `e` (spec §4.3.3:
"for each letter x, the set of letters that may legally follow"). -/
def followers (A : List L) (img : L → List L) (x : L) : List L :=
  A.flatMap (fun e =>
    ((img e).zip (img e).tail).filterMap
      (fun p => if p.1 = x then some p.2 else none))

/-- Extension of one side of a candidate by an optional letter:
`t[j]*Word([ext[j]])` when `ext[j] != None`, else `t[j]`
(`train_track_map.py` lines 381-387). -/
def extWord (w : List L) : Option L → List L
  | some a => w ++ [a]
  | none => w

/-- Worklist state of `indivisible_nielsen_paths`: `result` holds the
confirmed INPs in positions `< i` and the pending candidates from position
`i` on; `image` and `next` align positionally with the pending part
(`result.pop(i)` goes with `image.pop(0)` and `next.pop(0)`). -/
structure InpState (L : Type) where
  result : List (List L × List L)
  image : List (List L × List L)
  next : List (Option L × Option L)
  i : ℕ

/-- The worklist loop of `indivisible_nielsen_paths` (`train_track_map.py`
lines 375-424).  Each iteration pops the candidate at position `i` together
with the heads of `image`/`next`, extends it by `next`, tightens the images
by their common prefix (`G.common_prefix_length`, the spec-§4.2 contract
embedded as `cpl`) and dispatches on the five branches of the source.  The
`result.insert(i,t)`-with-`image.insert(0,tt)` bursts are written as
`take i ++ inserted ++ drop` of the popped lists; repeated insertion at a
fixed position reverses the iteration order of `extension[…]`, hence the
`.reverse` on the `next` entries (the inserted `result`/`image` entries are
all identical, so only `next`'s order matters).  Ill-formed states that the
source would crash on (misaligned lists, an empty side with no last letter)
and exhausted fuel return `none`: only a normally terminated run returns a
list. -/
def inpLoop (A : List L) (img : L → List L) :
    ℕ → InpState L → Option (List (List L × List L))
  | 0, _ => none
  | fuel + 1, st =>
    if h : st.i < st.result.length then
      match st.image, st.next with
      | tt :: imageRest, ext :: nextRest =>
        let t := st.result.get ⟨st.i, h⟩
        let u1 := extWord t.1 ext.1
        let u2 := extWord t.2 ext.2
        let uu1 := tt.1 ++ (match ext.1 with | some a => img a | none => [])
        let uu2 := tt.2 ++ (match ext.2 with | some a => img a | none => [])
        let p := cpl uu1 uu2
        let tt1 := uu1.drop p
        let tt2 := uu2.drop p
        if tt1 = [] then
          match u1.getLast? with
          | none => none
          | some x =>
            let exts := followers A img x
            inpLoop A img fuel
              { result := st.result.take st.i
                  ++ List.replicate exts.length (u1, u2)
                  ++ st.result.drop (st.i + 1)
                image := List.replicate exts.length (tt1, tt2) ++ imageRest
                next := exts.reverse.map (fun a => ((some a : Option L), (none : Option L)))
                  ++ nextRest
                i := st.i }
        else if tt2 = [] then
          match u2.getLast? with
          | none => none
          | some x =>
            let exts := followers A img x
            inpLoop A img fuel
              { result := st.result.take st.i
                  ++ List.replicate exts.length (u1, u2)
                  ++ st.result.drop (st.i + 1)
                image := List.replicate exts.length (tt1, tt2) ++ imageRest
                next := exts.reverse.map (fun a => ((none : Option L), (some a : Option L)))
                  ++ nextRest
                i := st.i }
        else if u1.isPrefixOf tt1 && u2.isPrefixOf tt2 then
          inpLoop A img fuel
            { result := st.result.take st.i ++ [(u1, u2)] ++ st.result.drop (st.i + 1)
              image := imageRest
              next := nextRest
              i := st.i + 1 }
        else if tt1.isPrefixOf u1 && (u2.isPrefixOf tt2 || tt2.isPrefixOf u2) then
          match u1.getLast? with
          | none => none
          | some x =>
            let exts := followers A img x
            inpLoop A img fuel
              { result := st.result.take st.i
                  ++ List.replicate exts.length (u1, u2)
                  ++ st.result.drop (st.i + 1)
                image := List.replicate exts.length (tt1, tt2) ++ imageRest
                next := exts.reverse.map (fun a => ((some a : Option L), (none : Option L)))
                  ++ nextRest
                i := st.i }
        else if tt2.isPrefixOf u2 && u1.isPrefixOf tt1 then
          match u2.getLast? with
          | none => none
          | some x =>
            let exts := followers A img x
            inpLoop A img fuel
              { result := st.result.take st.i
                  ++ List.replicate exts.length (u1, u2)
                  ++ st.result.drop (st.i + 1)
                image := List.replicate exts.length (tt1, tt2) ++ imageRest
                next := exts.reverse.map (fun a => ((none : Option L), (some a : Option L)))
                  ++ nextRest
                i := st.i }
        else
          inpLoop A img fuel
            { result := st.result.take st.i ++ st.result.drop (st.i + 1)
              image := imageRest
              next := nextRest
              i := st.i }
      | _, _ => none
    else some st.result

/-- `indivisible_nielsen_paths` (`train_track_map.py` lines 333-425),
fuel-indexed.  The seeds come from `fold_turns`
(`topological_representative.py`, not among the sources): each fold turn
contributes a candidate `(ε, ε)` with tightened image `(ε, ε)` and `next`
equal to the turn's two edges (lines 366-370). -/
def indivisibleNielsenPaths (A : List L) (img : L → List L)
    (seeds : List (L × L)) (fuel : ℕ) : Option (List (List L × List L)) :=
  inpLoop A img fuel
    { result := List.replicate seeds.length ([], [])
      image := List.replicate seeds.length ([], [])
      next := seeds.map (fun t => (some t.1, some t.2))
      i := 0 }

/-- An edge path all of whose transitions are taken by images of edges:
consecutive letters are `extension`-related.  Candidate sides built by the
INP search satisfy this by construction. -/
def FollowsChain (A : List L) (img : L → List L) (w : List L) : Prop :=
  List.Chain' (fun x y => y ∈ followers A img x) w

/-- Modelled from the spec: a fold turn, the seed of the INP search
(`fold_turns` is in `topological_representative.py`, not among the sources;
spec §4.3.3 seeds with "every fold turn — … the turns that can become legal
after one fold step", i.e. the turns whose two distinct edges share their
initial vertex and whose images start with the same letter, so that a single
fold identifies them; compare `stabilize`'s folding of turns with degenerate
`image_turn`, `train_track_map.py` lines 741-767). -/
def FoldTurn {V : Type} (A : List L) (initial : L → V) (img : L → List L)
    (e0 e1 : L) : Prop :=
  e0 ∈ A ∧ e1 ∈ A ∧ e0 ≠ e1 ∧ initial e0 = initial e1 ∧
    (img e0).head? = (img e1).head?

instance foldTurnDec {V : Type} [DecidableEq V] (A : List L) (initial : L → V)
    (img : L → List L) (e0 e1 : L) : Decidable (FoldTurn A initial img e0 e1) :=
  decidable_of_iff (e0 ∈ A ∧ e1 ∈ A ∧ e0 ≠ e1 ∧ initial e0 = initial e1 ∧
    (img e0).head? = (img e1).head?) Iff.rfl

/-- Modelled from the spec: an illegal turn (spec §3: turns `{e, e'}` such
that `f^n(e)` and `f^n(e')` eventually share a prefix; `illegal_turns` is in
`topological_representative.py`, not among the sources). -/
def IllegalTurn {V : Type} (initial : L → V) (img : L → List L) (e0 e1 : L) :
    Prop :=
  initial e0 = initial e1 ∧ e0 ≠ e1 ∧ ∃ n, 1 ≤ n ∧ 1 ≤ cpl (fpow img n [e0]) (fpow img n [e1])

/-- Soundness property of one reported INP `(t₀, t₁)` (claim C1): both sides
are non-empty reduced edge-paths, they share their initial vertex, their
first edges form an illegal turn, and each side is a prefix of its image
after removing the common prefix of the two images. -/
def InpSound {V : Type} (inv : L → L) (initial : L → V) (img : L → List L)
    (t : List L × List L) : Prop :=
  t.1 ≠ [] ∧ t.2 ≠ [] ∧
  Reduced inv t.1 ∧ Reduced inv t.2 ∧
  List.Chain' (fun x y => initial y = initial (inv x)) t.1 ∧
  List.Chain' (fun x y => initial y = initial (inv x)) t.2 ∧
  (∀ x ∈ t.1.head?, ∀ y ∈ t.2.head?, initial x = initial y ∧ IllegalTurn initial img x y) ∧
  t.1 <+: (fstar img t.1).drop (cpl (fstar img t.1) (fstar img t.2)) ∧
  t.2 <+: (fstar img t.2).drop (cpl (fstar img t.1) (fstar img t.2))

/-- Invariant of a confirmed or pending candidate pair: non-empty sides whose
transitions are taken turns and whose first edges form a fold turn. -/
def EntryOk {V : Type} (A : List L) (initial : L → V) (img : L → List L)
    (u : List L × List L) : Prop :=
  u.1 ≠ [] ∧ u.2 ≠ [] ∧ FollowsChain A img u.1 ∧ FollowsChain A img u.2 ∧
  ∃ e0 e1, u.1.head? = some e0 ∧ u.2.head? = some e1 ∧
    FoldTurn A initial img e0 e1

/-- Invariant of a confirmed entry (positions `< i` of `result`): `EntryOk`
plus the prefix conditions checked by the confirming branch. -/
def ConfirmedOk {V : Type} (A : List L) (initial : L → V) (img : L → List L)
    (t : List L × List L) : Prop :=
  EntryOk A initial img t ∧
  t.1 <+: (fstar img t.1).drop (cpl (fstar img t.1) (fstar img t.2)) ∧
  t.2 <+: (fstar img t.2).drop (cpl (fstar img t.1) (fstar img t.2))

/-- Invariant of a pending triple `(t, tt, ext)`: the tightened image `tt`
is the pair of images of `t` with their common prefix removed, and the
candidate extended by `ext` is well-formed (for the seed entries `t = (ε,ε)`
and `ext` carries the fold turn). -/
def PendingOk {V : Type} (A : List L) (initial : L → V) (img : L → List L)
    (t tt : List L × List L) (ext : Option L × Option L) : Prop :=
  EntryOk A initial img (extWord t.1 ext.1, extWord t.2 ext.2) ∧
  tt.1 = (fstar img t.1).drop (cpl (fstar img t.1) (fstar img t.2)) ∧
  tt.2 = (fstar img t.2).drop (cpl (fstar img t.1) (fstar img t.2))

/-- Whole-state invariant of the INP worklist. -/
def StInv {V : Type} (A : List L) (initial : L → V) (img : L → List L)
    (st : InpState L) : Prop :=
  st.i ≤ st.result.length ∧
  st.image.length = st.result.length - st.i ∧
  st.next.length = st.result.length - st.i ∧
  (∀ m t, m < st.i → st.result[m]? = some t → ConfirmedOk A initial img t) ∧
  (∀ m t tt ext, st.result[st.i + m]? = some t → st.image[m]? = some tt →
    st.next[m]? = some ext → PendingOk A initial img t tt ext)

/-- Lookup in an association list representing an edge map (used to state
that `stabilize` leaves the edge map unchanged). -/
def assocImg (assoc : List (L × List L)) (a : L) : List L :=
  ((assoc.find? (fun p => p.1 == a)).map (fun p => p.2)).getD []

/-- The first phase of `stabilize` (`train_track_map.py` lines 704-711): one
iteration begins by computing `self.indivisible_nielsen_paths()`; if the
list is empty the method returns the identity `WordMorphism`
`dict((a,a) for a in self._domain._alphabet)` at once — before any fold or
other mutation, so the edge map is returned unchanged.  A non-empty list
leads into the eigenvector computation (Sage matrix oracle), which is not
modelled: `none`. -/
def stabilizeFirst (A : List L) (edgeMap : List (L × List L))
    (seeds : List (L × L)) (fuel : ℕ) :
    Option (List (L × List L) × List (L × List L)) :=
  match indivisibleNielsenPaths A (assocImg edgeMap) seeds fuel with
  | some [] => some (edgeMap, A.map (fun a => (a, [a])))
  | _ => none

end Defs

/-- The failing edge map for `is_expanding`: `a ↦ B, b ↦ A, c ↦ cc` on the
rose with three petals, extended to negative letters by
`f(inv e) = reverse(inv(f(e)))`.  Iterating gives `a ↦ B ↦ a ↦ …`, so the
images of `a` and `b` stay single letters forever. -/
def expImg : Char → List Char
  | 'a' => ['B']
  | 'b' => ['A']
  | 'c' => ['c', 'c']
  | 'A' => ['b']
  | 'B' => ['a']
  | 'C' => ['C', 'C']
  | c => [c]

/-- The Fibonacci edge map `a ↦ ab, b ↦ a` on the rose with two petals,
extended to the negative letters; used as the concrete train-track map of
the witnesses. -/
def fibImg : Char → List Char
  | 'a' => ['a', 'b']
  | 'b' => ['a']
  | 'A' => ['B', 'A']
  | 'B' => ['A']
  | c => [c]

/-- The alphabet of `fibImg` (all four letters, positives first, as
`self._domain._alphabet` enumerates them). -/
def fibA : List Char := ['a', 'b', 'A', 'B']

/-- The edge map of `fibImg` as the association list held by the
`WordMorphism` edge map of the train-track object. -/
def fibEdges : List (Char × List Char) :=
  [('a', ['a', 'b']), ('b', ['a']), ('A', ['B', 'A']), ('B', ['A'])]

/-- The edge map `a ↦ ba, b ↦ bba` on the rose with two petals, extended to
the negative letters; its INP search terminates with a non-empty answer and
serves as the concrete witness of the INP soundness theorem. -/
def g1Img : Char → List Char
  | 'a' => ['b', 'a']
  | 'b' => ['b', 'b', 'a']
  | 'A' => ['A', 'B']
  | 'B' => ['A', 'B', 'B']
  | c => [c]

/-! ## Theorems -/

section WordThms

variable {L : Type} [DecidableEq L]

/-- A reduced word admits no cancellation step. -/
theorem reduced_no_step {inv : L → L} {w x : List L}
    (hw : Reduced inv w) (h : RedStep inv w x) : False := by
  obtain ⟨l, r, a, hw', _⟩ := h
  subst hw'
  unfold Reduced at hw
  rcases List.chain'_append.mp hw with ⟨-, hcons, -⟩
  rcases List.chain'_cons.mp hcons with ⟨hne, -⟩
  exact hne rfl

/-- A reduced word only reduces to itself. -/
theorem reduces_of_reduced {inv : L → L} {w x : List L}
    (hw : Reduced inv w) (h : Reduces inv w x) : x = w := by
  induction h using Relation.ReflTransGen.head_induction_on with
  | refl => rfl
  | head hstep _ _ => exact absurd hstep (fun hs => reduced_no_step hw hs)

/-- Prefixes of reduced words are reduced. -/
theorem Reduced.take {inv : L → L} {w : List L} (h : Reduced inv w) (n : ℕ) :
    Reduced inv (w.take n) :=
  List.Chain'.take h n

/-- Suffixes of reduced words are reduced. -/
theorem Reduced.drop {inv : L → L} {w : List L} (h : Reduced inv w) (n : ℕ) :
    Reduced inv (w.drop n) :=
  List.Chain'.drop h n

theorem cancelLen_le_left (inv : L → L) :
    ∀ ru v : List L, cancelLen inv ru v ≤ ru.length
  | [], _ => by simp [cancelLen]
  | _ :: _, [] => by simp [cancelLen]
  | a :: ru, b :: v => by
    unfold cancelLen
    split
    · exact Nat.succ_le_succ (cancelLen_le_left inv ru v)
    · simp

theorem cancelLen_le_right (inv : L → L) :
    ∀ ru v : List L, cancelLen inv ru v ≤ v.length
  | [], _ => by simp [cancelLen]
  | _ :: _, [] => by simp [cancelLen]
  | a :: ru, b :: v => by
    unfold cancelLen
    split
    · exact Nat.succ_le_succ (cancelLen_le_right inv ru v)
    · simp

/-- Below the cancellation count, letters match as inverse pairs. -/
theorem cancelLen_matches (inv : L → L) :
    ∀ (ru v : List L) (i : ℕ), i < cancelLen inv ru v →
      (ru[i]?).map inv = v[i]?
  | [], v, i => by simp [cancelLen]
  | _ :: _, [], i => by simp [cancelLen]
  | a :: ru, b :: v, 0 => by
    unfold cancelLen
    split
    · intro _; simp [*]
    · intro h; exact absurd h (by omega)
  | a :: ru, b :: v, i + 1 => by
    unfold cancelLen
    split
    · intro h
      simpa using cancelLen_matches inv ru v i (by omega)
    · intro h; exact absurd h (by omega)

/-- At the cancellation count itself, if both sides still have letters,
the match fails: the loop is greedy-maximal. -/
theorem cancelLen_stop (inv : L → L) :
    ∀ ru v : List L, cancelLen inv ru v < ru.length →
      cancelLen inv ru v < v.length →
      (ru[cancelLen inv ru v]?).map inv ≠ v[cancelLen inv ru v]?
  | [], v => by simp [cancelLen]
  | _ :: _, [] => by simp [cancelLen]
  | a :: ru, b :: v => by
    unfold cancelLen
    split
    · intro h1 h2
      simp only [List.length_cons] at h1 h2
      simpa using cancelLen_stop inv ru v (by omega) (by omega)
    · intro _ _
      simpa using ‹¬ inv a = b›

/-- Cancelling `k` matching inverse pairs at the junction of `u ++ v` is a
chain of elementary free cancellations. -/
theorem reduces_cancel (inv : L → L) :
    ∀ (k : ℕ) (u v : List L), k ≤ u.length → k ≤ v.length →
      (∀ i < k, (u.reverse[i]?).map inv = v[i]?) →
      Reduces inv (u ++ v) (u.take (u.length - k) ++ v.drop k)
  | 0, u, v => by
    intro _ _ _
    simp only [Nat.sub_zero, List.take_length, List.drop_zero]
    exact Relation.ReflTransGen.refl
  | k + 1, u, v => by
    intro hu hv hm
    have h0 := hm 0 (by omega)
    cases hr : u.reverse with
    | nil =>
      exfalso
      have : u = [] := by simpa using congrArg List.reverse hr
      subst this; simp at hu
    | cons a ru' =>
      have hU : u = ru'.reverse ++ [a] := by
        rw [← List.reverse_reverse u, hr]; simp
      rw [hr] at h0
      have hb : v[0]? = some (inv a) := by simpa using h0.symm
      cases v with
      | nil => simp at hb
      | cons b v' =>
        have hba : b = inv a := by simpa using hb
        have step : RedStep inv (u ++ (b :: v')) (ru'.reverse ++ v') := by
          refine ⟨ru'.reverse, v', a, ?_, rfl⟩
          rw [hU, hba]; simp
        have ih := reduces_cancel inv k ru'.reverse v'
          (by rw [hU] at hu; simp at hu ⊢; omega)
          (by simp at hv; omega)
          (by
            intro i hi
            have := hm (i + 1) (by omega)
            rw [hr] at this
            simpa using this)
        have hfin : u.take (u.length - (k + 1)) ++ (b :: v').drop (k + 1)
            = ru'.reverse.take (ru'.reverse.length - k) ++ v'.drop k := by
          rw [hU]
          have hlen : (ru'.reverse ++ [a]).length = ru'.reverse.length + 1 := by simp
          rw [hlen]
          have : ru'.reverse.length + 1 - (k + 1) = ru'.reverse.length - k := by omega
          rw [this, List.take_append_of_le_length (by omega)]
          simp
        rw [hfin]
        exact Relation.ReflTransGen.head step ih

/-- The word produced by `_mul_` is reduced whenever its inputs are. -/
theorem pyMul_reduced {inv : L → L} {u v : List L}
    (hu : Reduced inv u) (hv : Reduced inv v) :
    Reduced inv (pyMul inv u v) := by
  unfold pyMul Reduced
  rw [List.chain'_append]
  refine ⟨hu.take _, hv.drop _, ?_⟩
  intro x hx y hy
  set k := cancelLen inv u.reverse v with hk
  have hkle : k ≤ u.length := by
    simpa using cancelLen_le_left inv u.reverse v
  have hkv : k < v.length := by
    have h1 : (v.drop k).head? = some y := hy
    rw [List.head?_drop] at h1
    have h2 : k < v.length := by
      by_contra hcon
      rw [List.getElem?_eq_none (by omega)] at h1
      exact Option.noConfusion h1
    exact h2
  have hm : 0 < u.length - k := by
    by_contra h
    have : u.length - k = 0 := by omega
    rw [this] at hx
    simp at hx
  have hku : k < u.length := by omega
  have hx' : u[u.length - k - 1]? = some x := by
    rw [List.getLast?_eq_getElem?] at hx
    have hlen : (u.take (u.length - k)).length = u.length - k := by
      simp [Nat.min_eq_left (by omega : u.length - k ≤ u.length)]
    rw [hlen, List.getElem?_take] at hx
    simpa [hm] using hx
  have hy' : v[k]? = some y := by
    rw [List.head?_drop] at hy
    exact hy
  have hstop := cancelLen_stop inv u.reverse v
    (by simpa using hku) (by exact hkv)
  rw [← hk] at hstop
  have hrev : u.reverse[k]? = u[u.length - 1 - k]? :=
    List.getElem?_reverse (by simpa using hku)
  have hidx : u.length - 1 - k = u.length - k - 1 := by omega
  rw [hrev, hidx, hx', hy'] at hstop
  intro hcase
  exact hstop (by simp [hcase])

/-- Claim C3.  For reduced words `u`, `v` the source's `_mul_` returns a
reduced word, the concatenation `u ++ v` freely reduces to it (so they are
equal in the free group), and the result is `u[:|u|-k] ++ v[k:]` where `k`
is the maximal index such that `inv(u[|u|-1-i]) = v[i]` for all `i < k`. -/
theorem mul_sound {L : Type} [DecidableEq L] (inv : L → L) (u v : List L)
    (hu : Reduced inv u) (hv : Reduced inv v) :
    Reduced inv (pyMul inv u v) ∧
    Reduces inv (u ++ v) (pyMul inv u v) ∧
    pyMul inv u v
      = u.take (u.length - cancelLen inv u.reverse v)
        ++ v.drop (cancelLen inv u.reverse v) ∧
    cancelLen inv u.reverse v ≤ u.length ∧
    cancelLen inv u.reverse v ≤ v.length ∧
    (∀ i < cancelLen inv u.reverse v,
      (u[u.length - 1 - i]?).map inv = v[i]?) ∧
    (cancelLen inv u.reverse v < u.length →
      cancelLen inv u.reverse v < v.length →
      (u[u.length - 1 - cancelLen inv u.reverse v]?).map inv
        ≠ v[cancelLen inv u.reverse v]?) := by
  set k := cancelLen inv u.reverse v with hk
  have hkle : k ≤ u.length := by simpa using cancelLen_le_left inv u.reverse v
  have hkv : k ≤ v.length := cancelLen_le_right inv u.reverse v
  refine ⟨pyMul_reduced hu hv, ?_, rfl, hkle, hkv, ?_, ?_⟩
  · exact reduces_cancel inv k u v hkle hkv
      (fun i hi => cancelLen_matches inv u.reverse v i (by rw [← hk]; omega))
  · intro i hi
    have := cancelLen_matches inv u.reverse v i (by rw [← hk]; omega)
    rwa [List.getElem?_reverse (by omega)] at this
  · intro hku hkv'
    have := cancelLen_stop inv u.reverse v (by simpa using hku) hkv'
    rw [← hk] at this
    rwa [List.getElem?_reverse (by omega)] at this

/-- Witness for `mul_sound`: the spec's concrete scenario
`product("abAc", "Caa") = "aba"`, with upper-case letters the inverses of
lower-case ones. -/
theorem mul_sound_witness :
    Reduces chInv ['a', 'b', 'A', 'c', 'C', 'a', 'a'] ['a', 'b', 'a'] := by
  have h := mul_sound chInv ['a', 'b', 'A', 'c'] ['C', 'a', 'a']
    (by decide) (by decide)
  have heq : pyMul chInv ['a', 'b', 'A', 'c'] ['C', 'a', 'a']
      = ['a', 'b', 'a'] := by decide
  have := h.2.1
  rw [heq] at this
  simpa using this

/-- The inner loop counter never exceeds `i + 1` (the stack depth). -/
theorem matchRun_le (inv : L → L) (data : List L) :
    ∀ i j, matchRun inv data i j ≤ i + 1
  | 0, j => by
    unfold matchRun
    split
    · dsimp only
      omega
    · omega
  | Nat.succ i', j => by
    unfold matchRun
    split
    · dsimp only
      have := matchRun_le inv data i' (j + 1)
      omega
    · omega

/-- The inner loop stops at the right end of the data. -/
theorem matchRun_right (inv : L → L) (data : List L) :
    ∀ i j, matchRun inv data i j = 0 ∨
      j + matchRun inv data i j ≤ data.length
  | 0, j => by
    unfold matchRun
    split
    · dsimp only
      obtain ⟨-, h2, -⟩ := ‹_ ∧ _ ∧ _›
      right; omega
    · left; rfl
  | Nat.succ i', j => by
    unfold matchRun
    split
    · dsimp only
      obtain ⟨-, h2, -⟩ := ‹_ ∧ _ ∧ _›
      right
      rcases matchRun_right inv data i' (j + 1) with h | h
      · rw [h]; omega
      · omega
    · left; rfl

/-- Every counted pair is an inverse pair. -/
theorem matchRun_matches (inv : L → L) (data : List L) :
    ∀ i j m, m < matchRun inv data i j →
      (data[i - m]?).map inv = data[j + m]?
  | 0, j, m => by
    unfold matchRun
    split
    · dsimp only
      intro hm
      have : m = 0 := by omega
      subst this
      simpa using (‹_ ∧ _ ∧ _› : _ ∧ _ ∧ _).2.2
    · intro hm; exact absurd hm (by omega)
  | Nat.succ i', j, m => by
    unfold matchRun
    split
    · dsimp only
      intro hm
      match m with
      | 0 => simpa using (‹_ ∧ _ ∧ _› : _ ∧ _ ∧ _).2.2
      | Nat.succ m' =>
        have := matchRun_matches inv data i' (j + 1) m' (by omega)
        have hidx : i' + 1 - (m' + 1) = i' - m' := by omega
        have hidx2 : j + (m' + 1) = (j + 1) + m' := by omega
        rw [hidx, hidx2]
        exact this
    · intro hm; exact absurd hm (by omega)

/-- When the inner loop stops with the stack and data not exhausted, the
pair at the stop position does not match. -/
theorem matchRun_stop (inv : L → L) (data : List L) :
    ∀ i j, matchRun inv data i j ≤ i →
      j + matchRun inv data i j < data.length →
      (data[i - matchRun inv data i j]?).map inv
        ≠ data[j + matchRun inv data i j]?
  | 0, j => by
    unfold matchRun
    split
    · dsimp only
      intro h; exact absurd h (by omega)
    · intro _ hj
      simp only [Nat.add_zero, Nat.sub_zero] at hj ⊢
      intro hcon
      have h0 : 0 < data.length := by omega
      exact ‹¬ (_ ∧ _ ∧ _)› ⟨h0, by omega, hcon⟩
  | Nat.succ i', j => by
    unfold matchRun
    split
    · dsimp only
      intro hle hj
      have ih := matchRun_stop inv data i' (j + 1)
      have hle' : matchRun inv data i' (j + 1) ≤ i' := by omega
      have hj' : (j + 1) + matchRun inv data i' (j + 1) < data.length := by omega
      have := ih hle' hj'
      have hidx : i' + 1 - (matchRun inv data i' (j + 1) + 1)
          = i' - matchRun inv data i' (j + 1) := by omega
      have hidx2 : j + (matchRun inv data i' (j + 1) + 1)
          = (j + 1) + matchRun inv data i' (j + 1) := by omega
      rw [hidx, hidx2]
      exact this
    · intro _ hj
      simp only [Nat.add_zero, Nat.sub_zero] at hj ⊢
      intro hcon
      have h0 : i' + 1 < data.length ∨ ¬ (i' + 1 < data.length) := em _
      rcases h0 with h0 | h0
      · exact ‹¬ (_ ∧ _ ∧ _)› ⟨h0, by omega, hcon⟩
      · rw [List.getElem?_eq_none (by omega)] at hcon
        rw [List.getElem?_eq_some_iff.mpr ⟨by omega, rfl⟩] at hcon
        simp at hcon

/-- Writing at position `n` and keeping `n+1` cells appends the written
element to the first `n`. -/
theorem set_take_succ :
    ∀ (l : List L) (n : ℕ) (x : L), n < l.length →
      (l.set n x).take (n + 1) = l.take n ++ [x]
  | [], n, x => by intro h; simp at h
  | a :: l, 0, x => by intro _; simp
  | a :: l, n + 1, x => by
    intro h
    simp only [List.set_cons_succ, List.take_succ_cons, List.cons_append,
      List.cons.injEq, true_and]
    exact set_take_succ l n x (by simpa using Nat.lt_of_succ_lt_succ h)

/-- Invariant of the `_reduce` outer loop: at state `(data, i, j)` the stack
`data[:i+1]` is reduced, and the original word (reconstructed as
`stack ++ data[j:]`) keeps reducing to whatever the loop returns.  `fuel`
dominates the remaining iterations. -/
theorem pyReduceGo_sound (inv : L → L) :
    ∀ (fuel : ℕ) (data : List L) (i j : ℕ), i < j →
      data.length ≤ j + fuel →
      Reduced inv (data.take (i + 1)) →
      Reduced inv (pyReduceGo inv fuel data i j) ∧
      Reduces inv (data.take (i + 1) ++ data.drop j) (pyReduceGo inv fuel data i j)
  | 0, data, i, j => by
    intro hij hfuel hstack
    unfold pyReduceGo
    refine ⟨hstack, ?_⟩
    rw [List.drop_eq_nil_of_le (by omega)]
    simpa using Relation.ReflTransGen.refl
  | fuel + 1, data, i, j => by
    intro hij hfuel hstack
    unfold pyReduceGo
    by_cases hj : j < data.length
    · simp only [hj, dif_pos]
      set k := matchRun inv data i j with hkdef
      have hk1 : k ≤ i + 1 := matchRun_le inv data i j
      have hk2 : j + k ≤ data.length := by
        rcases matchRun_right inv data i j with h | h
        · rw [← hkdef] at h; omega
        · rw [← hkdef] at h; omega
      -- the k cancellations at the junction
      have hchunk : Reduces inv (data.take (i + 1) ++ data.drop j)
          (data.take (i + 1 - k) ++ data.drop (j + k)) := by
        have happ := reduces_cancel inv k (data.take (i + 1)) (data.drop j)
          (by simp; omega) (by simp; omega)
          (by
            intro m hm
            have hmm := matchRun_matches inv data i j m (by rw [← hkdef]; omega)
            have hlen : (data.take (i + 1)).length = i + 1 := by simp; omega
            have h1 : (data.take (i + 1)).reverse[m]? = data[i - m]? := by
              have hidx : i + 1 - 1 - m = i - m := by omega
              rw [List.getElem?_reverse (by simp; omega), hlen,
                List.getElem?_take, if_pos (by omega), hidx]
            have h2 : (data.drop j)[m]? = data[j + m]? := by
              rw [List.getElem?_drop]
            rw [h1, h2]
            exact hmm)
        have hlen : (data.take (i + 1)).length = i + 1 := by simp; omega
        rw [hlen] at happ
        have ht : (data.take (i + 1)).take (i + 1 - k) = data.take (i + 1 - k) := by
          rw [List.take_take]
          congr 1
          omega
        have hd : (data.drop j).drop k = data.drop (j + k) := by
          rw [List.drop_drop]
        rw [ht, hd] at happ
        exact happ
      have hik : i + 1 - k ≤ i + 1 := by omega
      have hikj : i + 1 - k < data.length := by omega
      have hleft : Reduced inv (data.take (i + 1 - k)) := by
        have : data.take (i + 1 - k) = (data.take (i + 1)).take (i + 1 - k) := by
          rw [List.take_take]
          congr 1
          omega
        rw [this]
        exact hstack.take _
      by_cases hj' : j + k + 1 ≤ data.length
      · simp only [hj', dif_pos]
        set y := data.get ⟨j + k, by omega⟩ with hydef
        set data' := data.set (i + 1 - k) y with hsetDef
        have hysome : data[j + k]? = some y := by
          rw [hydef]
          exact List.getElem?_eq_some_iff.mpr ⟨by omega, rfl⟩
        have hstack' : data'.take (i + 1 - k + 1) = data.take (i + 1 - k) ++ [y] :=
          set_take_succ data (i + 1 - k) y hikj
        have hstackred : Reduced inv (data'.take (i + 1 - k + 1)) := by
          rw [hstack']
          unfold Reduced
          rw [List.chain'_append]
          refine ⟨hleft, List.chain'_singleton y, ?_⟩
          intro x hx y' hy'
          have hy'' : y' = y := (by simpa using hy' : y = y').symm
          subst hy''
          -- the stack is non-empty here, so the inner loop stopped on a mismatch
          have hn : 0 < i + 1 - k := by
            by_contra hcon
            have : i + 1 - k = 0 := by omega
            rw [this] at hx
            simp at hx
          have hki : k ≤ i := by omega
          have hxsome : data[i - k]? = some x := by
            rw [List.getLast?_eq_getElem?] at hx
            have hlen2 : (data.take (i + 1 - k)).length = i + 1 - k := by
              simp; omega
            rw [hlen2, List.getElem?_take] at hx
            rw [if_pos (by omega)] at hx
            have : i + 1 - k - 1 = i - k := by omega
            rwa [this] at hx
          have hstop := matchRun_stop inv data i j (by omega) (by omega)
          rw [← hkdef, hxsome, hysome] at hstop
          intro hcase
          exact hstop (by simp [hcase])
        have hdrop' : data'.drop (j + k + 1) = data.drop (j + k + 1) := by
          rw [hsetDef, List.drop_set]
          rw [if_pos (by omega)]
        have hsplit : data.drop (j + k) = y :: data.drop (j + k + 1) := by
          have h := @List.drop_eq_getElem_cons _ (j + k) data (by omega)
          rw [hydef]
          exact h
        have ih := pyReduceGo_sound inv fuel data' (i + 1 - k) (j + k + 1)
          (by omega)
          (by rw [hsetDef]; simp; omega)
          hstackred
        refine ⟨ih.1, ?_⟩
        have hmid : data.take (i + 1 - k) ++ data.drop (j + k)
            = data'.take (i + 1 - k + 1) ++ data'.drop (j + k + 1) := by
          rw [hstack', hdrop', hsplit]
          simp
        exact Relation.ReflTransGen.trans (hmid ▸ hchunk) ih.2
      · simp only [hj', dif_neg]
        refine ⟨hleft, ?_⟩
        have hempty : data.drop (j + k) = [] :=
          List.drop_eq_nil_of_le (by omega)
        rw [hempty] at hchunk
        simpa using hchunk
    · rw [dif_neg hj]
      refine ⟨hstack, ?_⟩
      rw [List.drop_eq_nil_of_le (by omega)]
      simpa using Relation.ReflTransGen.refl

/-- Correctness of `_reduce`: the result is reduced and the input freely
reduces to it. -/
theorem pyReduce_sound (inv : L → L) (data : List L) :
    Reduced inv (pyReduce inv data) ∧ Reduces inv data (pyReduce inv data) := by
  unfold pyReduce
  cases data with
  | nil =>
    have h : pyReduceGo inv (([] : List L).length + 1) [] 0 1 = [] := rfl
    rw [h]
    exact ⟨List.chain'_nil, Relation.ReflTransGen.refl⟩
  | cons a rest =>
    have h := pyReduceGo_sound inv ((a :: rest).length + 1) (a :: rest) 0 1
      (by omega) (by simp; omega) (by exact List.chain'_singleton a)
    refine ⟨h.1, ?_⟩
    have heq : (a :: rest).take (0 + 1) ++ (a :: rest).drop 1 = a :: rest := by
      simp
    rw [heq] at h
    exact h.2

/-- Claim C4.  Construction with `check=true` runs `_reduce`, which returns
the free reduction of the input (a reduced word the input freely reduces
to); a reduced input comes back unchanged; and on the alphabet `{a,b,c}`
with inverses `{A,B,C}` the input "abcAab" yields `a b c b` (the doctest of
`_reduce`). -/
theorem reduce_correct {L : Type} [DecidableEq L] (inv : L → L) (data : List L) :
    (Reduced inv (pyReduce inv data) ∧
     Reduces inv data (pyReduce inv data) ∧
     (Reduced inv data → pyReduce inv data = data)) ∧
    pyReduce chInv ['a', 'b', 'c', 'A', 'a', 'b'] = ['a', 'b', 'c', 'b'] := by
  refine ⟨⟨(pyReduce_sound inv data).1, (pyReduce_sound inv data).2, ?_⟩, by decide⟩
  intro hred
  exact reduces_of_reduced hred (pyReduce_sound inv data).2

/-- Witness for `reduce_correct`: an already-reduced word is returned
unchanged. -/
theorem reduce_correct_witness :
    pyReduce chInv ['a', 'b', 'A'] = ['a', 'b', 'A'] := by
  have h := reduce_correct chInv ['a', 'b', 'A']
  exact h.1.2.2 (by decide)

theorem cpl_le_left : ∀ u v : List L, cpl u v ≤ u.length
  | [], _ => by simp [cpl]
  | _ :: _, [] => by simp [cpl]
  | a :: u, b :: v => by
    unfold cpl
    split
    · exact Nat.succ_le_succ (cpl_le_left u v)
    · simp

theorem cpl_le_right : ∀ u v : List L, cpl u v ≤ v.length
  | [], _ => by simp [cpl]
  | _ :: _, [] => by simp [cpl]
  | a :: u, b :: v => by
    unfold cpl
    split
    · exact Nat.succ_le_succ (cpl_le_right u v)
    · simp

/-- The common prefix is a common prefix. -/
theorem cpl_take_eq : ∀ u v : List L, u.take (cpl u v) = v.take (cpl u v)
  | [], v => by simp [cpl]
  | _ :: _, [] => by simp [cpl]
  | a :: u, b :: v => by
    unfold cpl
    split
    · simp only [List.take_succ_cons]
      rw [cpl_take_eq u v, ‹a = b›]
    · simp

/-- The common prefix length is maximal among common prefixes. -/
theorem cpl_max : ∀ (u v : List L) (k : ℕ), k ≤ u.length → k ≤ v.length →
    u.take k = v.take k → k ≤ cpl u v
  | [], v, k => by
    intro h _ _
    have hk : k = 0 := by simpa using h
    subst hk
    exact Nat.zero_le _
  | _ :: _, [], k => by
    intro _ h _
    have hk : k = 0 := by simpa using h
    subst hk
    exact Nat.zero_le _
  | a :: u, b :: v, 0 => by intro _ _ _; omega
  | a :: u, b :: v, k + 1 => by
    intro hu hv htake
    simp only [List.take_succ_cons, List.cons.injEq] at htake
    unfold cpl
    rw [if_pos htake.1]
    exact Nat.succ_le_succ (cpl_max u v k (by simpa using hu) (by simpa using hv) htake.2)

/-- Splitting off a common prefix shifts the common prefix length. -/
theorem cpl_append_same : ∀ (c u v : List L), cpl (c ++ u) (c ++ v) = c.length + cpl u v
  | [], u, v => by simp
  | x :: c, u, v => by
    have h1 : cpl (x :: (c ++ u)) (x :: (c ++ v)) = cpl (c ++ u) (c ++ v) + 1 := by
      simp [cpl]
    show cpl (x :: (c ++ u)) (x :: (c ++ v)) = (x :: c).length + cpl u v
    rw [h1, cpl_append_same c u v]
    simp only [List.length_cons]
    omega

/-- Claim C7.  The source `common_prefix_length` raises `NameError` on every
call (its body references the undefined locals `u`, `v`), while the intended
function — modelled from the spec — returns the maximal `k` with
`u[:k] = v[:k]`, which is at most `min(|u|, |v|)`, with equal prefixes of
that length. -/
theorem common_prefix_length_sound {L : Type} [DecidableEq L] (u v : List L) :
    commonPrefixLengthCode u v = Except.error PyErr.nameError ∧
    cpl u v ≤ u.length ∧ cpl u v ≤ v.length ∧
    u.take (cpl u v) = v.take (cpl u v) ∧
    (∀ k, k ≤ u.length → k ≤ v.length → u.take k = v.take k → k ≤ cpl u v) :=
  ⟨rfl, cpl_le_left u v, cpl_le_right u v, cpl_take_eq u v, cpl_max u v⟩

/-- Witness for `common_prefix_length_sound`: the doctest pair
`u = "aBaa"`, `v = "aBcb"` (whose documented answer is 2, while the code
raises). -/
theorem common_prefix_length_sound_witness :
    commonPrefixLengthCode ['a', 'B', 'a', 'a'] ['a', 'B', 'c', 'b']
        = Except.error PyErr.nameError ∧
    cpl ['a', 'B', 'a', 'a'] ['a', 'B', 'c', 'b'] = 2 :=
  ⟨(common_prefix_length_sound ['a', 'B', 'a', 'a'] ['a', 'B', 'c', 'b']).1,
    by decide⟩

/-- Claim C8.  Default inversion in `build_alphabet_with_inverses`: all
lower-case positives get their upper-case counterparts; mixed-case input
fails with the `AmbiguousInverse` `ValueError`; but all upper-case positives
crash with `TypeError` (the branch joins `neg`, which is still `None`)
instead of producing the lower-case counterparts. -/
theorem build_alphabet_default :
    (∀ data : List Char, data.all Char.isLower = true →
      buildAlphabetWithInverses data none = .ok (data, data.map Char.toUpper)) ∧
    buildAlphabetWithInverses ['A', 'B', 'C'] none = .error .typeError ∧
    buildAlphabetWithInverses ['a', 'B'] none = .error .valueError := by
  refine ⟨?_, by decide, by decide⟩
  intro data hlow
  unfold buildAlphabetWithInverses
  dsimp only
  rw [if_pos hlow]

/-- Witness for `build_alphabet_default`: the doctest
`build_alphabet_with_inverses('abc') = ({a,b,c}, {A,B,C})`. -/
theorem build_alphabet_default_witness :
    buildAlphabetWithInverses ['a', 'b', 'c'] none
      = .ok (['a', 'b', 'c'], ['A', 'B', 'C']) := by
  have h := build_alphabet_default.1 ['a', 'b', 'c'] (by decide)
  simpa using h

/-- Elements produced by a slice come from the original data. -/
theorem sliceElems_subset (data : List L) (start stop : Option Int) (step : Int) :
    ∀ x ∈ sliceElems data start stop step, x ∈ data := by
  intro x hx
  unfold sliceElems at hx
  split at hx
  · exact List.drop_subset _ _ (List.take_subset _ _ hx)
  · rw [List.mem_reverse] at hx
    exact List.drop_subset _ _ (List.take_subset _ _ hx)

/-- Claim C9.  Slicing a word: a step outside `{1, -1}` fails with the
`UnsupportedStep` `ValueError`; step `1`, `-1` or an omitted step succeeds
(given the word's letters lie in its parent's alphabet, the class invariant)
and returns a word of the same group. -/
theorem getitem_slice_sound {L : Type} [DecidableEq L] (w : PyWord L)
    (start stop : Option Int) (s : Int)
    (halpha : ∀ x ∈ w.data, w.parent.letters.contains x = true) :
    (¬ (s = 1 ∨ s = -1) →
      pyGetItemSlice w start stop (some s) = .error .valueError) ∧
    ((s = 1 ∨ s = -1) → ∃ w',
      pyGetItemSlice w start stop (some s) = .ok w' ∧ w'.parent = w.parent) ∧
    (∃ w', pyGetItemSlice w start stop none = .ok w' ∧ w'.parent = w.parent) := by
  have hcw : ∀ sl : Int, constructWord w.parent (sliceElems w.data start stop sl)
      = .ok ⟨w.parent, pyReduce w.parent.inv (sliceElems w.data start stop sl)⟩ := by
    intro sl
    unfold constructWord
    rw [if_pos]
    rw [List.all_eq_true]
    intro x hx
    exact halpha x (sliceElems_subset w.data start stop sl x hx)
  refine ⟨?_, ?_, ?_⟩
  · intro hs
    unfold pyGetItemSlice
    dsimp only
    rw [if_pos ⟨fun h => hs (Or.inl h), fun h => hs (Or.inr h)⟩]
  · intro hs
    unfold pyGetItemSlice
    dsimp only
    rw [if_neg (by tauto)]
    exact ⟨_, hcw s, rfl⟩
  · exact ⟨_, hcw 1, rfl⟩

/-- Witness for `getitem_slice_sound`: on the word `abA` of the rank-2 free
group, step 5 fails, step -1 succeeds within the same group. -/
theorem getitem_slice_sound_witness :
    pyGetItemSlice ⟨⟨0, ['a', 'b', 'A', 'B'], chInv⟩, ['a', 'b', 'A']⟩
        none none (some 5) = .error .valueError ∧
    ∃ w', pyGetItemSlice ⟨⟨0, ['a', 'b', 'A', 'B'], chInv⟩, ['a', 'b', 'A']⟩
        none none (some (-1)) = .ok w' ∧
      w'.parent = (⟨⟨0, ['a', 'b', 'A', 'B'], chInv⟩, ['a', 'b', 'A']⟩ : PyWord Char).parent := by
  have h := getitem_slice_sound (⟨⟨0, ['a', 'b', 'A', 'B'], chInv⟩, ['a', 'b', 'A']⟩ : PyWord Char)
    none none (-1) (by decide)
  have h5 := getitem_slice_sound (⟨⟨0, ['a', 'b', 'A', 'B'], chInv⟩, ['a', 'b', 'A']⟩ : PyWord Char)
    none none 5 (by decide)
  exact ⟨h5.1 (by omega), h.2.1 (Or.inr rfl)⟩

/-- Claim C10.  `__eq__`/`__ne__` never raise: against a non-word or a word
of another parent they return `False`/`True`; `__cmp__` raises `TypeError`
in exactly those cases; for words of the same parent, equality holds iff the
letter sequences agree, and `__cmp__` succeeds. -/
theorem word_eq_cmp_sound {L : Type} [DecidableEq L] (cmpL : L → L → Ordering)
    (w1 w2 : PyWord L) :
    (w1.parent.gid ≠ w2.parent.gid →
      pyEq w1 (some w2) = false ∧ pyNe w1 (some w2) = true ∧
      pyCmp cmpL w1 (some w2) = .error .typeError) ∧
    (pyEq w1 none = false ∧ pyNe w1 none = true ∧
      pyCmp cmpL w1 none = .error .typeError) ∧
    (w1.parent.gid = w2.parent.gid →
      ((pyEq w1 (some w2) = true ↔ w1.data = w2.data) ∧
       ∃ o, pyCmp cmpL w1 (some w2) = .ok o)) := by
  refine ⟨?_, ⟨rfl, rfl, rfl⟩, ?_⟩
  · intro hne
    refine ⟨?_, ?_, ?_⟩
    · unfold pyEq
      simp [hne]
    · unfold pyNe pyEq
      simp [hne]
    · unfold pyCmp
      dsimp only
      rw [if_pos hne]
  · intro heq
    constructor
    · unfold pyEq
      simp [heq]
    · unfold pyCmp
      dsimp only
      rw [if_neg (by simp [heq])]
      exact ⟨_, rfl⟩

/-- Witness for `word_eq_cmp_sound`: the same letter list in two distinct
groups compares unequal without raising, while `__cmp__` raises. -/
theorem word_eq_cmp_sound_witness :
    pyEq (⟨⟨0, ['a', 'b'], chInv⟩, ['a']⟩ : PyWord Char)
        (some ⟨⟨1, ['a', 'b'], chInv⟩, ['a']⟩) = false ∧
    pyNe (⟨⟨0, ['a', 'b'], chInv⟩, ['a']⟩ : PyWord Char)
        (some ⟨⟨1, ['a', 'b'], chInv⟩, ['a']⟩) = true ∧
    pyCmp (fun _ _ => Ordering.eq) (⟨⟨0, ['a', 'b'], chInv⟩, ['a']⟩ : PyWord Char)
        (some ⟨⟨1, ['a', 'b'], chInv⟩, ['a']⟩) = .error .typeError := by
  have h := word_eq_cmp_sound (fun _ _ => Ordering.eq)
    (⟨⟨0, ['a', 'b'], chInv⟩, ['a']⟩ : PyWord Char)
    (⟨⟨1, ['a', 'b'], chInv⟩, ['a']⟩ : PyWord Char)
  exact h.1 (by decide)

end WordThms

section AnalyzerThms

/-- The images of `'a'` under the iterates of `expImg` stay a single letter:
they alternate between `a` and `B`. -/
theorem expImg_iter_a : ∀ n : ℕ,
    fpow expImg n ['a'] = ['a'] ∨ fpow expImg n ['a'] = ['B'] := by
  intro n
  induction n with
  | zero => left; rfl
  | succ n ih =>
    rcases ih with h | h <;>
      rw [fpow, Function.iterate_succ_apply', ← fpow, h]
    · right; rfl
    · left; rfl

/-- Claim C5 (code bug).  On the edge map `a ↦ B, b ↦ A, c ↦ cc`,
`is_expanding` returns `True` although `|f^n(a)| = 1` for every `n`: the
second pruning loop tests the literal first letter of the image
(`self.image(e)[0] not in edges`) against a worklist of positive letters
only, so `a`, whose image is the negative letter `B`, is wrongly pruned.
This contradicts the method's own docstring ("for any edge e, there exists
n such that the length of f^n(e) is larger or equal to 2"). -/
theorem is_expanding_bug :
    isExpanding ['a', 'b', 'c'] expImg = true ∧
    (∀ n : ℕ, (fpow expImg n ['a']).length = 1) := by
  refine ⟨by decide, ?_⟩
  intro n
  rcases expImg_iter_a n with h | h <;> rw [h] <;> rfl

/-- Claim C2.  `is_iwip` on a map that is still stratified after the initial
reduction returns `False`: the dedicated check at line 1485 lost its
`return False` (it only prints), but `is_perron_frobenius` recomputes the
stratification (line 175) and returns `False`, which `is_iwip` propagates.
The hypothesis records the consistency of `self.stratify()` with
`self._strata` after `self.reduce()` — both live in
`topological_representative.py`, outside the given sources, and are
modelled from the spec (§4.3.9 step 1). -/
theorem is_iwip_stratified (st : IwipState)
    (hconsist : st.stratifyLen = st.strataAfterReduce)
    (h : 1 < st.strataAfterReduce) :
    isIwipB st = false := by
  unfold isIwipB isPerronFrobeniusB
  rw [hconsist, if_pos h]
  rfl

/-- Witness for `is_iwip_stratified`: a two-strata state. -/
theorem is_iwip_stratified_witness :
    isIwipB ⟨2, 2, true, 1, 1, 0, false⟩ = false :=
  is_iwip_stratified ⟨2, 2, true, 1, 1, 0, false⟩ rfl (by decide)

end AnalyzerThms

section InpThms

variable {L V : Type} [DecidableEq L]

theorem chain'_of_total {R : L → L → Prop} (h : ∀ a b, R a b) :
    ∀ l : List L, List.Chain' R l
  | [] => List.chain'_nil
  | [a] => List.chain'_singleton a
  | a :: b :: rest => List.chain'_cons.mpr ⟨h a b, chain'_of_total h (b :: rest)⟩

theorem fstar_append (img : L → List L) (u w : List L) :
    fstar img (u ++ w) = fstar img u ++ fstar img w := by
  simp [fstar]

theorem fstar_singleton (img : L → List L) (a : L) :
    fstar img [a] = img a := by
  simp [fstar]

theorem fstar_extWord (img : L → List L) (u : List L) (e : Option L) :
    fstar img (extWord u e)
      = fstar img u ++ (match e with | some a => img a | none => []) := by
  cases e with
  | none => simp [extWord]
  | some a => simp [extWord, fstar_append, fstar_singleton]

/-- Appending on both sides splits the common prefix length at the old one. -/
theorem cpl_append_split (A B w1 w2 : List L) :
    cpl (A ++ w1) (B ++ w2)
      = cpl A B + cpl (A.drop (cpl A B) ++ w1) (B.drop (cpl A B) ++ w2) := by
  set c := cpl A B with hc
  have hcA : c ≤ A.length := by rw [hc]; exact cpl_le_left A B
  have hcB : c ≤ B.length := by rw [hc]; exact cpl_le_right A B
  have htake : A.take c = B.take c := by rw [hc]; exact cpl_take_eq A B
  have hA : A ++ w1 = A.take c ++ (A.drop c ++ w1) := by
    rw [← List.append_assoc, List.take_append_drop]
  have hB : B ++ w2 = A.take c ++ (B.drop c ++ w2) := by
    rw [htake, ← List.append_assoc, List.take_append_drop]
  rw [hA, hB, cpl_append_same]
  congr 1
  simp [Nat.min_eq_left hcA]

/-- Dropping the split common prefix length from the extended word equals
dropping past the old common prefix first. -/
theorem drop_cpl_shift (A w : List L) (c m : ℕ) (hc : c ≤ A.length) :
    (A ++ w).drop (c + m) = (A.drop c ++ w).drop m := by
  have h1 : (A ++ w).drop (c + m) = ((A ++ w).drop c).drop m := by
    rw [List.drop_drop]
  rw [h1, List.drop_append_of_le_length hc]

/-- The tightened image of an extended candidate equals the image of the
extended candidate tightened from scratch: the source maintains the pair
`image` incrementally, and this is the key invariant of the worklist. -/
theorem tighten_extend (A B w1 w2 : List L) :
    (A.drop (cpl A B) ++ w1).drop
        (cpl (A.drop (cpl A B) ++ w1) (B.drop (cpl A B) ++ w2))
      = (A ++ w1).drop (cpl (A ++ w1) (B ++ w2)) := by
  rw [cpl_append_split A B w1 w2]
  rw [drop_cpl_shift A w1 (cpl A B) _ (cpl_le_left A B)]

theorem tighten_extend' (A B w1 w2 : List L) :
    (B.drop (cpl A B) ++ w2).drop
        (cpl (A.drop (cpl A B) ++ w1) (B.drop (cpl A B) ++ w2))
      = (B ++ w2).drop (cpl (A ++ w1) (B ++ w2)) := by
  rw [cpl_append_split A B w1 w2]
  rw [drop_cpl_shift B w2 (cpl A B) _ (cpl_le_right A B)]

/-- Characterisation of the extension table. -/
theorem mem_followers {A : List L} {img : L → List L} {x y : L} :
    y ∈ followers A img x ↔
      ∃ e ∈ A, (x, y) ∈ (img e).zip (img e).tail := by
  unfold followers
  rw [List.mem_flatMap]
  constructor
  · rintro ⟨e, he, hy⟩
    rw [List.mem_filterMap] at hy
    obtain ⟨p, hp, hpy⟩ := hy
    by_cases hx : p.1 = x
    · rw [if_pos hx] at hpy
      refine ⟨e, he, ?_⟩
      have : p = (x, y) := by
        cases p
        simp at hx hpy
        simp [hx, hpy]
      rwa [this] at hp
    · rw [if_neg hx] at hpy
      exact absurd hpy (by simp)
  · rintro ⟨e, he, hp⟩
    refine ⟨e, he, ?_⟩
    rw [List.mem_filterMap]
    exact ⟨(x, y), hp, by simp⟩

/-- Adjacent pairs of a `Chain'` list satisfy the relation. -/
theorem chain'_zip_tail {R : L → L → Prop} :
    ∀ l : List L, List.Chain' R l → ∀ p ∈ l.zip l.tail, R p.1 p.2
  | [] => by intro _ p hp; simp at hp
  | [a] => by intro _ p hp; simp at hp
  | a :: b :: rest => by
    intro hch p hp
    rw [List.chain'_cons] at hch
    simp only [List.tail_cons, List.zip_cons_cons, List.mem_cons] at hp
    rcases hp with hp | hp
    · rw [hp]; exact hch.1
    · exact chain'_zip_tail (b :: rest) hch.2 p (by simpa using hp)

/-- Under reduced edge images, a legal continuation is never the inverse of
the letter it follows. -/
theorem followers_ne_inv {A : List L} {inv : L → L} {img : L → List L} {x y : L}
    (hred : ∀ e ∈ A, Reduced inv (img e))
    (h : y ∈ followers A img x) : y ≠ inv x := by
  rw [mem_followers] at h
  obtain ⟨e, he, hp⟩ := h
  exact chain'_zip_tail (img e) (hred e he) (x, y) hp

/-- Under continuous edge images, a legal continuation starts at the
terminal vertex of the letter it follows. -/
theorem followers_initial {A : List L} {initial : L → V} {inv : L → L}
    {img : L → List L} {x y : L}
    (hpath : ∀ e ∈ A, List.Chain' (fun p q => initial q = initial (inv p)) (img e))
    (h : y ∈ followers A img x) : initial y = initial (inv x) := by
  rw [mem_followers] at h
  obtain ⟨e, he, hp⟩ := h
  exact chain'_zip_tail (img e) (hpath e he) (x, y) hp

/-- Extension of a non-empty `FollowsChain` by a legal continuation. -/
theorem followsChain_snoc {A : List L} {img : L → List L} {w : List L} {a : L}
    (hw : FollowsChain A img w)
    (hlast : ∀ x ∈ w.getLast?, a ∈ followers A img x) :
    FollowsChain A img (w ++ [a]) := by
  unfold FollowsChain at hw ⊢
  rw [List.chain'_append]
  refine ⟨hw, List.chain'_singleton a, ?_⟩
  intro x hx y hy
  have : y = a := (by simpa using hy : a = y).symm
  subst this
  exact hlast x hx

theorem head?_append_left {w : List L} (h : w ≠ []) (a : L) :
    (w ++ [a]).head? = w.head? := by
  cases w with
  | nil => exact absurd rfl h
  | cons b rest => rfl

/-- Combined tightening step: the incrementally maintained tightened image
of the extended candidate coincides with tightening its full image. -/
theorem tighten_step {img : L → List L} {t1 t2 tt1 tt2 : List L} (w1 w2 : List L)
    (h1 : tt1 = (fstar img t1).drop (cpl (fstar img t1) (fstar img t2)))
    (h2 : tt2 = (fstar img t2).drop (cpl (fstar img t1) (fstar img t2))) :
    (tt1 ++ w1).drop (cpl (tt1 ++ w1) (tt2 ++ w2))
        = (fstar img t1 ++ w1).drop (cpl (fstar img t1 ++ w1) (fstar img t2 ++ w2))
    ∧ (tt2 ++ w2).drop (cpl (tt1 ++ w1) (tt2 ++ w2))
        = (fstar img t2 ++ w2).drop (cpl (fstar img t1 ++ w1) (fstar img t2 ++ w2)) := by
  subst h1
  subst h2
  exact ⟨tighten_extend _ _ _ _, tighten_extend' _ _ _ _⟩

/-- Seed entries are well-formed candidates. -/
theorem entryOk_seed {A : List L} {initial : L → V} {img : L → List L} {e0 e1 : L}
    (h : FoldTurn A initial img e0 e1) :
    EntryOk A initial img (extWord [] (some e0), extWord [] (some e1)) := by
  refine ⟨by simp [extWord], by simp [extWord], ?_, ?_, e0, e1, rfl, rfl, h⟩
  · exact List.chain'_singleton e0
  · exact List.chain'_singleton e1

/-- Extending the first side of a well-formed candidate by a legal
continuation of its last letter. -/
theorem entryOk_extend1 {A : List L} {initial : L → V} {img : L → List L}
    {u1 u2 : List L} {x a : L}
    (hok : EntryOk A initial img (u1, u2))
    (hlast : u1.getLast? = some x) (ha : a ∈ followers A img x) :
    EntryOk A initial img (extWord u1 (some a), extWord u2 none) := by
  obtain ⟨hne1, hne2, hch1, hch2, e0, e1, hh0, hh1, hft⟩ := hok
  refine ⟨by simp [extWord], hne2, ?_, hch2, e0, e1, ?_, hh1, hft⟩
  · exact followsChain_snoc hch1 (by intro y hy; rw [hlast] at hy; simp at hy; rwa [← hy])
  · show (u1 ++ [a]).head? = some e0
    rw [head?_append_left hne1]
    exact hh0

/-- Extending the second side of a well-formed candidate. -/
theorem entryOk_extend2 {A : List L} {initial : L → V} {img : L → List L}
    {u1 u2 : List L} {x a : L}
    (hok : EntryOk A initial img (u1, u2))
    (hlast : u2.getLast? = some x) (ha : a ∈ followers A img x) :
    EntryOk A initial img (extWord u1 none, extWord u2 (some a)) := by
  obtain ⟨hne1, hne2, hch1, hch2, e0, e1, hh0, hh1, hft⟩ := hok
  refine ⟨hne1, by simp [extWord], hch1, ?_, e0, e1, hh0, ?_, hft⟩
  · exact followsChain_snoc hch2 (by intro y hy; rw [hlast] at hy; simp at hy; rwa [← hy])
  · show (u2 ++ [a]).head? = some e1
    rw [head?_append_left hne2]
    exact hh1

/-- Invariant preservation for the extension branches of the worklist: the
popped entry at `i` is replaced by `n` copies carrying the freshly tightened
image and one pending extension each. -/
theorem stinv_extend {A : List L} {initial : L → V} {img : L → List L}
    {res : List (List L × List L)}
    {tt : List L × List L} {imageRest : List (List L × List L)}
    {ext : Option L × Option L} {nextRest : List (Option L × Option L)}
    {i : ℕ} (hi : i < res.length)
    (hst : StInv A initial img ⟨res, tt :: imageRest, ext :: nextRest, i⟩)
    (ne tt' : List L × List L)
    (nl : List (Option L × Option L)) (n : ℕ) (hnl : nl.length = n)
    (hpn : ∀ e' ∈ nl, PendingOk A initial img ne tt' e') :
    StInv A initial img
      ⟨res.take i ++ List.replicate n ne ++ res.drop (i + 1),
       List.replicate n tt' ++ imageRest, nl ++ nextRest, i⟩ := by
  unfold StInv at hst ⊢
  dsimp only at hst ⊢
  obtain ⟨hile, hlm, hln, hconf, hpend⟩ := hst
  simp only [List.length_cons] at hlm hln
  have htl : (res.take i).length = i := by
    rw [List.length_take]
    omega
  have hdl : (res.drop (i + 1)).length = res.length - (i + 1) := by
    rw [List.length_drop]
  refine ⟨?_, ?_, ?_, ?_, ?_⟩
  · simp only [List.length_append, htl, List.length_replicate, hdl]
    omega
  · simp only [List.length_append, htl, List.length_replicate, hdl]
    omega
  · simp only [List.length_append, htl, List.length_replicate, hdl, hnl]
    omega
  · intro m t hm hsome
    apply hconf m t hm
    rw [List.append_assoc] at hsome
    rw [List.getElem?_append_left (by omega : m < (res.take i).length),
      List.getElem?_take, if_pos hm] at hsome
    exact hsome
  · intro m t' tt'' ext'' h1 h2 h3
    rw [List.append_assoc] at h1
    rw [List.getElem?_append_right (by omega : (res.take i).length ≤ i + m)] at h1
    rw [htl] at h1
    have him : i + m - i = m := by omega
    rw [him] at h1
    by_cases hmn : m < n
    · rw [List.getElem?_append_left (by simpa using hmn)] at h1
      rw [List.getElem?_replicate, if_pos hmn] at h1
      rw [List.getElem?_append_left (by simpa using hmn), List.getElem?_replicate,
        if_pos hmn] at h2
      rw [List.getElem?_append_left (by omega : m < nl.length)] at h3
      obtain ⟨hlt3, hget⟩ := List.getElem?_eq_some_iff.mp h3
      have hmem : ext'' ∈ nl := hget ▸ List.getElem_mem hlt3
      obtain rfl : t' = ne := by injection h1 with h; exact h.symm ▸ rfl
      obtain rfl : tt'' = tt' := by injection h2 with h; exact h.symm ▸ rfl
      exact hpn ext'' hmem
    · rw [List.getElem?_append_right (by simpa using not_lt.mp hmn)] at h1
      rw [List.length_replicate] at h1
      rw [List.getElem?_drop] at h1
      rw [List.getElem?_append_right (by simpa using not_lt.mp hmn),
        List.length_replicate] at h2
      rw [List.getElem?_append_right (by omega : nl.length ≤ m), hnl] at h3
      have := hpend (m - n + 1) t' tt'' ext'' ?_ ?_ ?_
      · exact this
      · show res[i + (m - n + 1)]? = some t'
        have : i + (m - n + 1) = i + 1 + (m - n) := by omega
        rw [this]
        exact h1
      · show (tt :: imageRest)[m - n + 1]? = some tt''
        simpa using h2
      · show (ext :: nextRest)[m - n + 1]? = some ext''
        simpa using h3

/-- Invariant preservation for the confirming branch: the extended candidate
is reinserted as a confirmed entry and `i` advances past it. -/
theorem stinv_confirm {A : List L} {initial : L → V} {img : L → List L}
    {res : List (List L × List L)}
    {tt : List L × List L} {imageRest : List (List L × List L)}
    {ext : Option L × Option L} {nextRest : List (Option L × Option L)}
    {i : ℕ} (hi : i < res.length)
    (hst : StInv A initial img ⟨res, tt :: imageRest, ext :: nextRest, i⟩)
    (ne : List L × List L) (hne : ConfirmedOk A initial img ne) :
    StInv A initial img
      ⟨res.take i ++ [ne] ++ res.drop (i + 1), imageRest, nextRest, i + 1⟩ := by
  unfold StInv at hst ⊢
  dsimp only at hst ⊢
  obtain ⟨hile, hlm, hln, hconf, hpend⟩ := hst
  simp only [List.length_cons] at hlm hln
  have htl : (res.take i).length = i := by
    rw [List.length_take]
    omega
  have hdl : (res.drop (i + 1)).length = res.length - (i + 1) := by
    rw [List.length_drop]
  refine ⟨?_, ?_, ?_, ?_, ?_⟩
  · simp only [List.length_append, htl, List.length_singleton, hdl]
    omega
  · simp only [List.length_append, htl, List.length_singleton, hdl]
    omega
  · simp only [List.length_append, htl, List.length_singleton, hdl]
    omega
  · intro m t hm hsome
    rw [List.append_assoc] at hsome
    by_cases hmi : m < i
    · apply hconf m t hmi
      rw [List.getElem?_append_left (by omega : m < (res.take i).length),
        List.getElem?_take, if_pos hmi] at hsome
      exact hsome
    · have hmi' : m = i := by omega
      subst hmi'
      rw [List.getElem?_append_right (by omega : (res.take m).length ≤ m)] at hsome
      rw [htl, Nat.sub_self] at hsome
      have : ([ne] ++ res.drop (m + 1))[0]? = some ne := by simp
      rw [this] at hsome
      obtain rfl : t = ne := by injection hsome with h; exact h.symm ▸ rfl
      exact hne
  · intro m t' tt'' ext'' h1 h2 h3
    rw [List.append_assoc] at h1
    rw [List.getElem?_append_right (by omega : (res.take i).length ≤ i + 1 + m)] at h1
    rw [htl] at h1
    have hidx : i + 1 + m - i = m + 1 := by omega
    rw [hidx] at h1
    have : ([ne] ++ res.drop (i + 1))[m + 1]? = (res.drop (i + 1))[m]? := by
      rw [List.getElem?_append_right (by simp)]
      simp
    rw [this, List.getElem?_drop] at h1
    have := hpend (m + 1) t' tt'' ext'' ?_ ?_ ?_
    · exact this
    · show res[i + (m + 1)]? = some t'
      have : i + (m + 1) = i + 1 + m := by omega
      rw [this]
      exact h1
    · simpa using h2
    · simpa using h3

/-- Invariant preservation for the discarding branch. -/
theorem stinv_discard {A : List L} {initial : L → V} {img : L → List L}
    {res : List (List L × List L)}
    {tt : List L × List L} {imageRest : List (List L × List L)}
    {ext : Option L × Option L} {nextRest : List (Option L × Option L)}
    {i : ℕ} (hi : i < res.length)
    (hst : StInv A initial img ⟨res, tt :: imageRest, ext :: nextRest, i⟩) :
    StInv A initial img
      ⟨res.take i ++ res.drop (i + 1), imageRest, nextRest, i⟩ := by
  unfold StInv at hst ⊢
  dsimp only at hst ⊢
  obtain ⟨hile, hlm, hln, hconf, hpend⟩ := hst
  simp only [List.length_cons] at hlm hln
  have htl : (res.take i).length = i := by
    rw [List.length_take]
    omega
  have hdl : (res.drop (i + 1)).length = res.length - (i + 1) := by
    rw [List.length_drop]
  refine ⟨?_, ?_, ?_, ?_, ?_⟩
  · simp only [List.length_append, htl, hdl]
    omega
  · simp only [List.length_append, htl, hdl]
    omega
  · simp only [List.length_append, htl, hdl]
    omega
  · intro m t hm hsome
    apply hconf m t hm
    rw [List.getElem?_append_left (by omega : m < (res.take i).length),
      List.getElem?_take, if_pos hm] at hsome
    exact hsome
  · intro m t' tt'' ext'' h1 h2 h3
    rw [List.getElem?_append_right (by omega : (res.take i).length ≤ i + m), htl] at h1
    have hidx : i + m - i = m := by omega
    rw [hidx, List.getElem?_drop] at h1
    have := hpend (m + 1) t' tt'' ext'' ?_ ?_ ?_
    · exact this
    · show res[i + (m + 1)]? = some t'
      have : i + (m + 1) = i + 1 + m := by omega
      rw [this]
      exact h1
    · simpa using h2
    · simpa using h3

/-- Soundness of the worklist loop: a normally terminated run only reports
candidates that were confirmed, and every confirmed candidate satisfies the
invariant `ConfirmedOk`. -/
theorem inpLoop_sound (A : List L) (initial : L → V) (img : L → List L) :
    ∀ (fuel : ℕ) (st : InpState L) (out : List (List L × List L)),
      StInv A initial img st → inpLoop A img fuel st = some out →
      ∀ t ∈ out, ConfirmedOk A initial img t
  | 0, st, out => by
    intro _ hrun
    exact absurd hrun (by simp [inpLoop])
  | fuel + 1, st, out => by
    intro hinv hrun
    obtain ⟨res, im, nx, i⟩ := st
    unfold inpLoop at hrun
    dsimp only at hrun
    by_cases hi : i < res.length
    case neg =>
      rw [dif_neg hi] at hrun
      obtain rfl : res = out := by injection hrun
      intro t ht
      obtain ⟨m, hm⟩ := List.mem_iff_getElem?.mp ht
      have hmlt : m < res.length := by
        by_contra hcon
        rw [List.getElem?_eq_none (by omega)] at hm
        exact Option.noConfusion hm
      have hile : i ≤ res.length := hinv.1
      exact hinv.2.2.2.1 m t (by show m < i; omega) hm
    case pos =>
      rw [dif_pos hi] at hrun
      rcases im with _ | ⟨tt, imageRest⟩
      · exact absurd hrun (by simp)
      rcases nx with _ | ⟨ext, nextRest⟩
      · exact absurd hrun (by simp)
      dsimp only at hrun
      -- the popped candidate and its invariant
      have hp0 : PendingOk A initial img (res.get ⟨i, hi⟩) tt ext := by
        refine hinv.2.2.2.2 0 _ tt ext ?_ (by simp) (by simp)
        show res[i + 0]? = some (res.get ⟨i, hi⟩)
        rw [Nat.add_zero]
        exact List.getElem?_eq_some_iff.mpr ⟨hi, rfl⟩
      obtain ⟨hentry, htt1f, htt2f⟩ := hp0
      set t := res.get ⟨i, hi⟩ with htdef
      set u1 := extWord t.1 ext.1 with hu1def
      set u2 := extWord t.2 ext.2 with hu2def
      set w1 := (match ext.1 with | some a => img a | none => ([] : List L)) with hw1def
      set w2 := (match ext.2 with | some a => img a | none => ([] : List L)) with hw2def
      set p := cpl (tt.1 ++ w1) (tt.2 ++ w2) with hpdef
      set tt1 := (tt.1 ++ w1).drop p with htt1def
      set tt2 := (tt.2 ++ w2).drop p with htt2def
      have hfu1 : fstar img u1 = fstar img t.1 ++ w1 := by
        rw [hu1def, fstar_extWord, hw1def]
      have hfu2 : fstar img u2 = fstar img t.2 ++ w2 := by
        rw [hu2def, fstar_extWord, hw2def]
      have htight := tighten_step w1 w2 htt1f htt2f
      have htt1' : tt1 = (fstar img u1).drop (cpl (fstar img u1) (fstar img u2)) := by
        rw [htt1def, hpdef, hfu1, hfu2]
        exact htight.1
      have htt2' : tt2 = (fstar img u2).drop (cpl (fstar img u1) (fstar img u2)) := by
        rw [htt2def, hpdef, hfu1, hfu2]
        exact htight.2
      have hpnew : ∀ (e' : Option L × Option L),
          (∃ x, (u1.getLast? = some x ∧ ∃ a ∈ followers A img x, e' = (some a, none)) ∨
                (u2.getLast? = some x ∧ ∃ a ∈ followers A img x, e' = (none, some a))) →
          PendingOk A initial img (u1, u2) (tt1, tt2) e' := by
        rintro e' ⟨x, hcase⟩
        rcases hcase with ⟨hlast, a, ha, rfl⟩ | ⟨hlast, a, ha, rfl⟩
        · exact ⟨entryOk_extend1 hentry hlast ha, htt1', htt2'⟩
        · exact ⟨entryOk_extend2 hentry hlast ha, htt1', htt2'⟩
      by_cases hb1 : tt1 = []
      · rw [if_pos hb1] at hrun
        cases hlast : u1.getLast? with
        | none => rw [hlast] at hrun; exact absurd hrun (by simp)
        | some x =>
          rw [hlast] at hrun
          dsimp only at hrun
          refine inpLoop_sound A initial img fuel _ out ?_ hrun
          refine stinv_extend hi hinv (u1, u2) (tt1, tt2) _ _ (by simp) ?_
          intro e' he'
          rw [List.mem_map] at he'
          obtain ⟨a, ha, rfl⟩ := he'
          rw [List.mem_reverse] at ha
          exact hpnew _ ⟨x, Or.inl ⟨hlast, a, ha, rfl⟩⟩
      · rw [if_neg hb1] at hrun
        by_cases hb2 : tt2 = []
        · rw [if_pos hb2] at hrun
          cases hlast : u2.getLast? with
          | none => rw [hlast] at hrun; exact absurd hrun (by simp)
          | some x =>
            rw [hlast] at hrun
            dsimp only at hrun
            refine inpLoop_sound A initial img fuel _ out ?_ hrun
            refine stinv_extend hi hinv (u1, u2) (tt1, tt2) _ _ (by simp) ?_
            intro e' he'
            rw [List.mem_map] at he'
            obtain ⟨a, ha, rfl⟩ := he'
            rw [List.mem_reverse] at ha
            exact hpnew _ ⟨x, Or.inr ⟨hlast, a, ha, rfl⟩⟩
        · rw [if_neg hb2] at hrun
          by_cases hb3 : (u1.isPrefixOf tt1 && u2.isPrefixOf tt2) = true
          · rw [if_pos hb3] at hrun
            rw [Bool.and_eq_true] at hb3
            refine inpLoop_sound A initial img fuel _ out ?_ hrun
            refine stinv_confirm hi hinv (u1, u2) ?_
            refine ⟨hentry, ?_, ?_⟩
            · have := List.isPrefixOf_iff_prefix.mp hb3.1
              rw [htt1'] at this
              exact this
            · have := List.isPrefixOf_iff_prefix.mp hb3.2
              rw [htt2'] at this
              exact this
          · rw [if_neg hb3] at hrun
            by_cases hb4 : (tt1.isPrefixOf u1 && (u2.isPrefixOf tt2 || tt2.isPrefixOf u2)) = true
            · rw [if_pos hb4] at hrun
              cases hlast : u1.getLast? with
              | none => rw [hlast] at hrun; exact absurd hrun (by simp)
              | some x =>
                rw [hlast] at hrun
                dsimp only at hrun
                refine inpLoop_sound A initial img fuel _ out ?_ hrun
                refine stinv_extend hi hinv (u1, u2) (tt1, tt2) _ _ (by simp) ?_
                intro e' he'
                rw [List.mem_map] at he'
                obtain ⟨a, ha, rfl⟩ := he'
                rw [List.mem_reverse] at ha
                exact hpnew _ ⟨x, Or.inl ⟨hlast, a, ha, rfl⟩⟩
            · rw [if_neg hb4] at hrun
              by_cases hb5 : (tt2.isPrefixOf u2 && u1.isPrefixOf tt1) = true
              · rw [if_pos hb5] at hrun
                cases hlast : u2.getLast? with
                | none => rw [hlast] at hrun; exact absurd hrun (by simp)
                | some x =>
                  rw [hlast] at hrun
                  dsimp only at hrun
                  refine inpLoop_sound A initial img fuel _ out ?_ hrun
                  refine stinv_extend hi hinv (u1, u2) (tt1, tt2) _ _ (by simp) ?_
                  intro e' he'
                  rw [List.mem_map] at he'
                  obtain ⟨a, ha, rfl⟩ := he'
                  rw [List.mem_reverse] at ha
                  exact hpnew _ ⟨x, Or.inr ⟨hlast, a, ha, rfl⟩⟩
              · rw [if_neg hb5] at hrun
                refine inpLoop_sound A initial img fuel _ out ?_ hrun
                exact stinv_discard hi hinv

theorem fpow_one (img : L → List L) (w : List L) : fpow img 1 w = fstar img w := by
  simp [fpow]

/-- Two non-empty words with the same first letter share a prefix. -/
theorem cpl_pos_of_head_eq {x y : List L} (hx : x ≠ []) (hy : y ≠ [])
    (h : x.head? = y.head?) : 1 ≤ cpl x y := by
  cases x with
  | nil => exact absurd rfl hx
  | cons a x' =>
    cases y with
    | nil => exact absurd rfl hy
    | cons b y' =>
      have : a = b := by simpa using h
      unfold cpl
      rw [if_pos this]
      omega

/-- A confirmed entry satisfies the full INP soundness property, under the
train-track data-model hypotheses. -/
theorem confirmedOk_inpSound {A : List L} {inv : L → L} {initial : L → V}
    {img : L → List L} {t : List L × List L}
    (hne : ∀ e ∈ A, img e ≠ [])
    (hred : ∀ e ∈ A, Reduced inv (img e))
    (hpath : ∀ e ∈ A, List.Chain' (fun p q => initial q = initial (inv p)) (img e))
    (h : ConfirmedOk A initial img t) : InpSound inv initial img t := by
  obtain ⟨⟨hne1, hne2, hch1, hch2, e0, e1, hh0, hh1, hft⟩, hp1, hp2⟩ := h
  obtain ⟨he0, he1, hne01, hinit, himg⟩ := hft
  refine ⟨hne1, hne2, ?_, ?_, ?_, ?_, ?_, hp1, hp2⟩
  · exact List.Chain'.imp (fun x y hxy => followers_ne_inv hred hxy) hch1
  · exact List.Chain'.imp (fun x y hxy => followers_ne_inv hred hxy) hch2
  · exact List.Chain'.imp (fun x y hxy => followers_initial hpath hxy) hch1
  · exact List.Chain'.imp (fun x y hxy => followers_initial hpath hxy) hch2
  · intro x hx y hy
    have hx0 : x = e0 := (by rw [hh0] at hx; simpa using hx : e0 = x).symm
    have hy1 : y = e1 := (by rw [hh1] at hy; simpa using hy : e1 = y).symm
    subst hx0
    subst hy1
    refine ⟨hinit, hinit, hne01, 1, le_refl 1, ?_⟩
    rw [fpow_one, fpow_one, fstar_singleton, fstar_singleton]
    exact cpl_pos_of_head_eq (hne _ he0) (hne _ he1) himg

/-- The seed state of `indivisible_nielsen_paths` satisfies the worklist
invariant when every seed is a fold turn. -/
theorem stinv_init {A : List L} {initial : L → V} {img : L → List L}
    {seeds : List (L × L)}
    (hseeds : ∀ s ∈ seeds, FoldTurn A initial img s.1 s.2) :
    StInv A initial img
      ⟨List.replicate seeds.length (([] : List L), ([] : List L)),
       List.replicate seeds.length (([] : List L), ([] : List L)),
       seeds.map (fun s => (some s.1, some s.2)), 0⟩ := by
  refine ⟨by simp, by simp, by simp, ?_, ?_⟩
  · intro m t hm
    exact absurd (show m < 0 from hm) (by omega)
  · intro m t' tt'' ext'' h1 h2 h3
    simp only [Nat.zero_add] at h1
    rw [List.getElem?_replicate] at h1 h2
    by_cases hm : m < seeds.length
    · rw [if_pos hm] at h1 h2
      obtain rfl : t' = ([], []) := by injection h1 with h; exact h.symm ▸ rfl
      obtain rfl : tt'' = ([], []) := by injection h2 with h; exact h.symm ▸ rfl
      rw [List.getElem?_map] at h3
      obtain ⟨s, hs, rfl⟩ := Option.map_eq_some'.mp h3
      have hsmem : s ∈ seeds := by
        obtain ⟨hlt, hget⟩ := List.getElem?_eq_some_iff.mp hs
        exact hget ▸ List.getElem_mem hlt
      refine ⟨entryOk_seed (hseeds s hsmem), ?_, ?_⟩ <;> simp [fstar]
    · rw [if_neg hm] at h1
      exact Option.noConfusion h1

/-- Claim C1 (soundness of the INP search).  If `indivisible_nielsen_paths`
terminates and returns a list, then every reported pair `(t₀, t₁)` is a pair
of non-empty reduced edge-paths sharing their initial vertex, whose first
edges form an illegal turn, and each `tᵢ` is a prefix of `f(tᵢ)` after
removing the common prefix of `f(t₀)` and `f(t₁)`.

Hypotheses spell out the train-track data model (spec §3) for the edge map:
images are non-empty, reduced, continuous edge-paths over the alphabet; the
seeds are fold turns (the modelled `fold_turns` contract). -/
theorem inp_search_sound {L V : Type} [DecidableEq L] (A : List L)
    (inv : L → L) (initial : L → V) (img : L → List L)
    (seeds : List (L × L)) (fuel : ℕ) (out : List (List L × List L))
    (hne : ∀ e ∈ A, img e ≠ [])
    (hred : ∀ e ∈ A, Reduced inv (img e))
    (hpath : ∀ e ∈ A, List.Chain' (fun p q => initial q = initial (inv p)) (img e))
    (hseeds : ∀ s ∈ seeds, FoldTurn A initial img s.1 s.2)
    (hrun : indivisibleNielsenPaths A img seeds fuel = some out) :
    ∀ t ∈ out, InpSound inv initial img t := by
  intro t ht
  have hconf := inpLoop_sound A initial img fuel _ out (stinv_init hseeds) hrun t ht
  exact confirmedOk_inpSound hne hred hpath hconf

/-- Witness for `inp_search_sound`: the expanding train-track map
`a ↦ ba, b ↦ bba` on the rose (one vertex), whose INP search terminates and
reports the pair `(a, b)` among others; the reported pair satisfies the INP
property. -/
theorem inp_search_sound_witness :
    InpSound chInv (fun _ => (0 : ℕ)) g1Img (['a'], ['b']) := by
  have h := inp_search_sound ['a', 'b', 'A', 'B'] chInv (fun _ => (0 : ℕ)) g1Img
    [('a', 'b'), ('A', 'B')] 40
    [(['a'], ['b']), (['A', 'B'], ['B']), (['A', 'B'], ['B'])]
    (by decide) (by decide)
    (by intro e he; exact chain'_of_total (fun p q => rfl) _)
    (by decide)
    (by decide)
  exact h (['a'], ['b']) (by simp)

/-- Identity lookups in the substitution `dict((a,a) for a in alphabet)`. -/
theorem assocImg_id (a : L) : ∀ A : List L, a ∈ A →
    assocImg (A.map (fun b => (b, [b]))) a = [a]
  | [], h => absurd h (by simp)
  | b :: rest, h => by
    unfold assocImg
    by_cases hba : (b == a) = true
    · rw [List.map_cons, List.find?_cons_of_pos _ (by simpa using hba)]
      have hb : b = a := by simpa using hba
      simp [hb]
    · rw [List.map_cons, List.find?_cons_of_neg _ (by simpa using hba)]
      have hmem : a ∈ rest := by
        rcases List.mem_cons.mp h with h' | h'
        · exact absurd h'.symm (by simpa using hba)
        · exact h'
      have hrec := assocImg_id a rest hmem
      unfold assocImg at hrec
      exact hrec

/-- The identity substitution acts as the identity on words over the
alphabet. -/
theorem fstar_assocImg_id (A : List L) :
    ∀ w : List L, (∀ x ∈ w, x ∈ A) →
      fstar (assocImg (A.map (fun b => (b, [b])))) w = w
  | [], _ => rfl
  | x :: rest, h => by
    have h1 : fstar (assocImg (A.map (fun b => (b, [b])))) (x :: rest)
        = assocImg (A.map (fun b => (b, [b]))) x
          ++ fstar (assocImg (A.map (fun b => (b, [b])))) rest := by
      simp [fstar]
    rw [h1, assocImg_id x A (h x (by simp)),
      fstar_assocImg_id A rest (fun y hy => h y (by simp [hy]))]
    rfl

/-- Claim C6.  When `indivisible_nielsen_paths` returns the empty list, the
first iteration of `stabilize` returns at once with the identity
substitution `dict((a,a) for a in self._domain._alphabet)` — before any
fold — so the edge map is unchanged; the returned substitution maps every
alphabet letter `a` to the one-letter word `a` and acts as the identity on
words over the alphabet. -/
theorem stabilize_identity {L : Type} [DecidableEq L] (A : List L)
    (edgeMap : List (L × List L)) (seeds : List (L × L)) (fuel : ℕ)
    (hinp : indivisibleNielsenPaths A (assocImg edgeMap) seeds fuel = some []) :
    stabilizeFirst A edgeMap seeds fuel
        = some (edgeMap, A.map (fun a => (a, [a]))) ∧
    (∀ a ∈ A, assocImg (A.map (fun b => (b, [b]))) a = [a]) ∧
    (∀ w : List L, (∀ x ∈ w, x ∈ A) →
      fstar (assocImg (A.map (fun b => (b, [b])))) w = w) := by
  refine ⟨?_, fun a ha => assocImg_id a A ha, fstar_assocImg_id A⟩
  unfold stabilizeFirst
  rw [hinp]

/-- Witness for `stabilize_identity`: the Fibonacci train-track map
`a ↦ ab, b ↦ a` has no INPs, so `stabilize` returns the identity
substitution and leaves the edge map untouched. -/
theorem stabilize_identity_witness :
    stabilizeFirst fibA fibEdges [('a', 'b')] 10
      = some (fibEdges, fibA.map (fun a => (a, [a]))) := by
  have h := stabilize_identity fibA fibEdges [('a', 'b')] 10 (by decide)
  exact h.1

end InpThms

end STT
